import Mathlib

/-!
Shallow embedding of `pyxem/utils/indexation_utils.py` (the diffsims/pyxem
indexation core) and verification of its specification claims.

Modelling conventions used throughout:

* Machine floats are modelled by exact rationals `ℚ`.  All arithmetic used by
  the source (addition, multiplication, division, absolute value, comparison,
  rounding) is exact here.  Python float division by zero raises; `ℚ` division
  by zero yields `0`.  Every claim settled below either supplies nonzero
  denominators or does not depend on the quotient's value.
* `numpy` object rows (heterogeneous `[phase, ..., score]` rows) are modelled
  by records with one typed field per column.  A metrics `dict` with an
  optional key is modelled by a record whose optional entry is an `Option`
  field (`none` = key absent).
* Out-of-bounds `numpy` indexing and invalid `kth` arguments of
  `np.partition`, which raise `IndexError`/`ValueError`, are modelled by
  `Option`-valued functions returning `none`.
* `np.argsort` is modelled by a stable argsort (sorting indices by the
  lexicographic order on (value, index)).  `np.argpartition(a, kth)` only
  guarantees a permutation whose extremal segment holds extremal indices; the
  fully sorted permutation is one canonical valid outcome and is used as its
  model.
* `np.linalg.norm` (whose exact value is irrational) appears in the source
  only in comparisons; it is taken as an uninterpreted parameter `vecNorm`,
  so every theorem below holds for every possible norm implementation.
* `get_rotation_matrix_between_vectors` and `get_angle_cartesian` live in
  `pyxem/utils/vector_utils.py`, which is not part of the sources under
  verification; they are taken as parameters (fields of `Geom`), as are the
  reciprocal-lattice conversions `cartesian`/`fractional` and the external
  `transforms3d` conversion `mat2euler`, which the source also imports.
* `np.rint` rounds halves to even while Mathlib's `round` rounds halves up.
  The indexation errors `|hkl - rint hkl|` are identical for any
  nearest-integer rounding, and no claim inspects the rounded triples
  themselves, so `round` is used.
-/

/-- A 3-vector of rationals, modelling one row of an `(n, 3)` float array. -/
structure Vec3 where
  x : ℚ
  y : ℚ
  z : ℚ
deriving DecidableEq

/-- A 3x3 matrix given by rows, modelling a rotation matrix. -/
structure Mat3 where
  r1 : Vec3
  r2 : Vec3
  r3 : Vec3
deriving DecidableEq

/-- The zero vector, used as an out-of-range lookup default. -/
def v0 : Vec3 := ⟨0, 0, 0⟩

/-- Componentwise sum, modelling `numpy` vector addition. -/
def vadd (a b : Vec3) : Vec3 := ⟨a.x + b.x, a.y + b.y, a.z + b.z⟩

/-- Componentwise absolute difference, modelling `np.abs(a - b)`. -/
def vabsSub (a b : Vec3) : Vec3 := ⟨|a.x - b.x|, |a.y - b.y|, |a.z - b.z|⟩

/-- Componentwise nearest-integer rounding, modelling `np.rint`. -/
def rintVec (v : Vec3) : Vec3 := ⟨(round v.x : ℤ), (round v.y : ℤ), (round v.z : ℤ)⟩

/-- Largest component, modelling `np.max(..., axis=1)` on one row. -/
def maxComp (v : Vec3) : ℚ := max v.x (max v.y v.z)

/-- Component sum of one row, used for `np.mean` over a 2-d block. -/
def sumComp (v : Vec3) : ℚ := v.x + v.y + v.z

/-- Row vector times matrix, modelling one row of `peaks.dot(R)`. -/
def mulVecMat (p : Vec3) (m : Mat3) : Vec3 :=
  ⟨p.x * m.r1.x + p.y * m.r2.x + p.z * m.r3.x,
   p.x * m.r1.y + p.y * m.r2.y + p.z * m.r3.y,
   p.x * m.r1.z + p.y * m.r2.z + p.z * m.r3.z⟩

/-- The identity matrix, modelling `np.identity(3)`. -/
def identityMat : Mat3 := ⟨⟨1, 0, 0⟩, ⟨0, 1, 0⟩, ⟨0, 0, 1⟩⟩

/-- Lexicographic order on (value at index, index): the order a stable
`np.argsort` establishes on positions of the value list `vals`. -/
def lexLe (vals : List ℚ) (i j : ℕ) : Prop :=
  vals.getD i 0 < vals.getD j 0 ∨ (vals.getD i 0 = vals.getD j 0 ∧ i ≤ j)

instance (vals : List ℚ) : DecidableRel (lexLe vals) := fun _ _ =>
  inferInstanceAs (Decidable (_ ∨ _))

instance (vals : List ℚ) : IsTotal ℕ (lexLe vals) := by
  constructor
  intro i j
  rcases lt_trichotomy (vals.getD i 0) (vals.getD j 0) with h | h | h
  · exact Or.inl (Or.inl h)
  · rcases Nat.le_total i j with hij | hij
    · exact Or.inl (Or.inr ⟨h, hij⟩)
    · exact Or.inr (Or.inr ⟨h.symm, hij⟩)
  · exact Or.inr (Or.inl h)

instance (vals : List ℚ) : IsTrans ℕ (lexLe vals) := by
  constructor
  intro i j k hij hjk
  rcases hij with h1 | ⟨h1, h1i⟩
  · rcases hjk with h2 | ⟨h2, h2i⟩
    · exact Or.inl (h1.trans h2)
    · exact Or.inl (h2 ▸ h1)
  · rcases hjk with h2 | ⟨h2, h2i⟩
    · exact Or.inl (h1 ▸ h2)
    · exact Or.inr ⟨h1.trans h2, h1i.trans h2i⟩

instance (vals : List ℚ) : IsAntisymm ℕ (lexLe vals) := by
  constructor
  intro i j hij hji
  rcases hij with h1 | ⟨h1, h1i⟩
  · rcases hji with h2 | ⟨h2, h2i⟩
    · exact absurd (h1.trans h2) (lt_irrefl _)
    · exact absurd h2 (ne_of_gt h1)
  · rcases hji with h2 | ⟨h2, h2i⟩
    · exact absurd h1 (ne_of_gt h2)
    · exact Nat.le_antisymm h1i h2i

/-- Stable argsort of a value list: the permutation of `range vals.length`
that sorts positions by ascending value, equal values keeping their original
relative order.  Models `np.argsort` (and, canonically, `np.argpartition`). -/
def argsortQ (vals : List ℚ) : List ℕ :=
  List.insertionSort (lexLe vals) (List.range vals.length)

/-- Values sorted ascending; models `np.partition`-style value sorting. -/
def sortAscQ (l : List ℚ) : List ℚ := List.insertionSort (· ≤ ·) l

/-- Values sorted descending (largest first). -/
def sortDescQ (l : List ℚ) : List ℚ := (sortAscQ l).reverse

/-- Model of `np.partition(a, -2)[-2]`: the second-largest value counted with
multiplicity; `none` when `a` has fewer than two entries (`ValueError`). -/
def npPartitionNegTwo (l : List ℚ) : Option ℚ :=
  if l.length < 2 then none else (sortAscQ l)[l.length - 2]?

/-- Model of `np.partition(a, 1)[1]`: the second-smallest value counted with
multiplicity; `none` when `a` has fewer than two entries (`ValueError`). -/
def npPartitionOne (l : List ℚ) : Option ℚ := (sortAscQ l)[1]?

/-- Model of `np.max`: `none` on the empty list (`ValueError`). -/
def npMaxQ : List ℚ → Option ℚ
  | [] => none
  | x :: xs =>
    match npMaxQ xs with
    | none => some x
    | some m => some (max x m)

/-- Model of `np.min`: `none` on the empty list (`ValueError`). -/
def npMinQ : List ℚ → Option ℚ
  | [] => none
  | x :: xs =>
    match npMinQ xs with
    | none => some x
    | some m => some (min x m)

/-- Model of `np.argmax`: index of the first occurrence of the maximum;
`none` on the empty list (`ValueError`). -/
def npArgmaxQ : List ℚ → Option ℕ
  | [] => none
  | x :: xs =>
    match npArgmaxQ xs, npMaxQ xs with
    | some j, some m => if x < m then some (j + 1) else some 0
    | _, _ => some 0

/-- Model of `np.argmin`: index of the first occurrence of the minimum;
`none` on the empty list (`ValueError`). -/
def npArgminQ : List ℚ → Option ℕ
  | [] => none
  | x :: xs =>
    match npArgminQ xs, npMinQ xs with
    | some j, some m => if m < x then some (j + 1) else some 0
    | _, _ => some 0

/-- Model of `np.unique(column).shape[0]`: the number of distinct entries. -/
def numUnique (l : List ℕ) : ℕ := l.dedup.length

/-!
Embedding of `_choose_peak_ids` (source lines 150-176).

The source computes `peak_lengths = np.linalg.norm(peaks, axis=1)` and then
uses the lengths only through `argpartition`, i.e. only through their order,
so the norm is taken as the parameter `vecNorm`.  `argpartition(-n_long)` /
`argpartition(n_short)` are modelled by the full stable argsort of the
lengths (a canonical valid partition).  `n_long_peaks` is
`int(math.ceil(n / 2))`, i.e. `(n + 1) / 2` in natural division.
-/

/-- Embedding of `_choose_peak_ids(peaks, n_peaks_to_index)`. -/
def choose_peak_ids (vecNorm : Vec3 → ℚ) (peaks : List Vec3)
    (n_peaks_to_index : ℕ) : List ℕ :=
  let n := min peaks.length n_peaks_to_index
  let n_long_peaks := (n + 1) / 2
  let n_short_peaks := n - n_long_peaks
  let peak_lengths := peaks.map vecNorm
  let s := argsortQ peak_lengths
  s.drop (peaks.length - n_long_peaks) ++ s.take n_short_peaks

/-!
Embedding of `_sort_solutions` (source lines 179-196) and of the solution
rows `[R, match_rate, ehkls, error_mean, vector_pair_index]` built by
`match_vectors` (source lines 313-319).
-/

/-- One solution row appended by `match_vectors`:
`[R, match_rate, ehkls, error_mean, vector_pair_index]`. -/
structure Solution where
  R : Mat3
  match_rate : ℚ
  ehkls : List Vec3
  error_mean : ℚ
  vector_pair_index : ℕ
deriving DecidableEq

/-- Default row used for (provably in-range) list lookups. -/
def defaultSolution : Solution := ⟨identityMat, 0, [], 0, 0⟩

instance : Inhabited Solution := ⟨defaultSolution⟩

/-- Embedding of `_sort_solutions(solutions, n_solutions)`:
`solutions[solutions[:, 1].argsort()[::-1][:n_solutions]]` with
`n_solutions = min(n_solutions, solutions.shape[0])`.  Column 1 is the match
rate.  Note the ascending argsort is reversed, so equal match rates end up in
reverse of their input order. -/
def sort_solutions (solutions : List Solution) (n_solutions : ℕ) : List Solution :=
  let n := min n_solutions solutions.length
  (((argsortQ (solutions.map (·.match_rate))).reverse).take n).map
    (fun i => solutions.getD i defaultSolution)

/-!
Embedding of `match_vectors` (source lines 199-350).
-/

/-- The reciprocal-lattice geometry of one phase
(`structure.lattice.reciprocal()`): conversions between Miller-index triples
and cartesian vectors.  These conversions are supplied by an external
collaborator (`diffpy` lattice objects) and are modelled as opaque function
fields. -/
structure ReciprocalLattice where
  cartesian : Vec3 → Vec3
  fractional : Vec3 → Vec3

/-- One phase of the vector library, zipped with its structure as the source
iterates `zip(library.values(), library.structures)`: `phase['indices']` rows
(hkl pairs), `phase['measurements']` rows `(len1, len2, angle)`, and the
reciprocal lattice of the structure.  Library invariant: `indices` and
`measurements` rows correspond one to one. -/
structure VLibEntry where
  indices : List (Vec3 × Vec3)
  measurements : List (ℚ × ℚ × ℚ)
  lattice_recip : ReciprocalLattice

/-- External numeric collaborators of `match_vectors`: `np.linalg.norm` on a
single 3-vector (uninterpreted, see module comment), plus
`get_angle_cartesian` and `get_rotation_matrix_between_vectors` from
`pyxem/utils/vector_utils.py`, which is not among the sources under
verification. -/
structure Geom where
  vecNorm : Vec3 → ℚ
  get_angle_cartesian : Vec3 → Vec3 → ℚ
  get_rotation_matrix_between_vectors : Vec3 → Vec3 → Vec3 → Vec3 → Mat3

/-- All unordered pairs in order, modelling `itertools.combinations(ids, 2)`. -/
def pairsOf : List ℕ → List (ℕ × ℕ)
  | [] => []
  | i :: rest => rest.map (fun j => (i, j)) ++ pairsOf rest

/-- Candidate rotations of one phase: for each enumerated peak pair (ordered
longest first) and each catalog row passing the three tolerance tests, the
rotation produced by `get_rotation_matrix_between_vectors` together with the
enumeration index `vector_pair_index` of the pair (source lines 261-290). -/
def phaseCandidates (g : Geom) (peaks : List Vec3) (entry : VLibEntry)
    (mag_tol angle_tol : ℚ) (n_peaks_to_index : ℕ) : List (ℕ × Mat3) :=
  let unindexed_peak_ids := choose_peak_ids g.vecNorm peaks n_peaks_to_index
  (pairsOf unindexed_peak_ids).enum.flatMap (fun vp =>
    let p1 := peaks.getD vp.2.1 v0
    let p2 := peaks.getD vp.2.2 v0
    let q1 := if g.vecNorm p1 < g.vecNorm p2 then p2 else p1
    let q2 := if g.vecNorm p1 < g.vecNorm p2 then p1 else p2
    let angle := g.get_angle_cartesian q1 q2
    let matched := (entry.indices.zip entry.measurements).filter (fun im =>
      decide (|im.2.1 - g.vecNorm q1| < mag_tol) &&
      decide (|im.2.2.1 - g.vecNorm q2| < mag_tol) &&
      decide (|im.2.2.2 - angle| < angle_tol))
    matched.map (fun im =>
      (vp.1, g.get_rotation_matrix_between_vectors q1 q2
        (entry.lattice_recip.cartesian im.1.1)
        (entry.lattice_recip.cartesian im.1.2))))

/-- The fractional indexation of all peaks under candidate rotation `R`:
`hkls = lattice_recip.fractional(peaks.dot(R))` (source line 294). -/
def hklsOf (frac : Vec3 → Vec3) (peaks : List Vec3) (R : Mat3) : List Vec3 :=
  peaks.map (fun p => frac (mulVecMat p R))

/-- Rounded indexation `rhkls = np.rint(hkls)` (source line 297). -/
def rhklsOf (frac : Vec3 → Vec3) (peaks : List Vec3) (R : Mat3) : List Vec3 :=
  (hklsOf frac peaks R).map rintVec

/-- Indexation errors `ehkls = np.abs(hkls - rhkls)` (source line 298). -/
def ehklsOf (frac : Vec3 → Vec3) (peaks : List Vec3) (R : Mat3) : List Vec3 :=
  (hklsOf frac peaks R).map (fun h => vabsSub h (rintVec h))

/-- Evaluation of one candidate rotation (source lines 296-320): the solution
row is kept exactly when more than 2 peaks have all-component indexation
error below `index_error_tol`; its match rate is the kept fraction of all
peaks (0 when there are no peaks) and its error mean is the `np.mean` of the
kept rows of `ehkls`, i.e. the sum of their `3 * count` entries over
`3 * count`. -/
def candidateSolution (frac : Vec3 → Vec3) (peaks : List Vec3)
    (index_error_tol : ℚ) (c : ℕ × Mat3) : Option Solution :=
  let ehkls := ehklsOf frac peaks c.2
  let valid := ehkls.filter (fun e => decide (maxComp e < index_error_tol))
  if 2 < valid.length then
    some { R := c.2,
           match_rate :=
             if peaks.length = 0 then 0
             else (valid.length : ℚ) / (peaks.length : ℚ),
           ehkls := ehkls,
           error_mean := (valid.map sumComp).sum / (3 * valid.length),
           vector_pair_index := c.1 }
  else none

/-- The retained solutions of one phase, in candidate order (the source's
`solutions` list right before ranking). -/
def phaseSolutions (g : Geom) (peaks : List Vec3) (entry : VLibEntry)
    (mag_tol angle_tol index_error_tol : ℚ) (n_peaks_to_index : ℕ) :
    List Solution :=
  (phaseCandidates g peaks entry mag_tol angle_tol n_peaks_to_index).filterMap
    (candidateSolution entry.lattice_recip.fractional peaks index_error_tol)

/-- The rounded-hkl arrays appended to `res_rhkls` for one phase, appended in
lockstep with the retained solutions (source line 320). -/
def phaseRhkls (g : Geom) (peaks : List Vec3) (entry : VLibEntry)
    (mag_tol angle_tol index_error_tol : ℚ) (n_peaks_to_index : ℕ) :
    List (List Vec3) :=
  (phaseCandidates g peaks entry mag_tol angle_tol n_peaks_to_index).filterMap
    (fun c =>
      if (candidateSolution entry.lattice_recip.fractional peaks
            index_error_tol c).isSome then
        some (rhklsOf entry.lattice_recip.fractional peaks c.2)
      else none)

/-- One row of the `match_vectors` indexation output:
`[phase index, rotation matrix, match rate, error hkls, total error]`.
The same record models the rows consumed by `crystal_from_vector_matching`. -/
structure VRow where
  phase : ℕ
  R : Mat3
  match_rate : ℚ
  ehkls : List Vec3
  total_error : ℚ
deriving DecidableEq

/-- The dummy row the source writes into unused solution slots (source lines
330-338): `[0, np.identity(3), 0, np.array([]), 1.0]`.  Note its first entry
is the literal `0`, not the phase index: the dummy fill overwrites all five
columns of those rows, including the phase column written earlier. -/
def sentinelRow : VRow := ⟨0, identityMat, 0, [], 1⟩

/-- Assembly of one phase's `n_best` output rows (source lines 322-338):
the ranked solutions get the phase index in column 0, and all remaining rows
are the dummy row. -/
def phaseBlock (phase_index n_best : ℕ) (solutions : List Solution) :
    List VRow :=
  let n_solutions := min n_best solutions.length
  let top_n := sort_solutions solutions n_solutions
  (if 0 < n_solutions then
    top_n.map (fun s => ⟨phase_index, s.R, s.match_rate, s.ehkls, s.error_mean⟩)
  else []) ++ List.replicate (n_best - n_solutions) sentinelRow

/-- The `peaks` argument of `match_vectors` as received at the public
interface: either a plain `(N, 3)` float array or a one dimensional object
array whose elements are vector arrays. -/
inductive PeaksArg where
  | arr (peaks : List Vec3)
  | obj (elems : List (List Vec3))

/-- The unwrap at the top of `match_vectors` (source lines 235-236): a
`(1,)`-shaped object array is replaced by its single element.  Other object
arrays are not meaningful downstream and are outside the modelled domain. -/
def unwrapPeaks : PeaksArg → Option (List Vec3)
  | .arr peaks => some peaks
  | .obj [peaks] => some peaks
  | .obj _ => none

/-- The pair returned by `match_vectors`: `res[0]` is the
`(len(library) * n_best, 5)` indexation array, `res[1]` the list of
rounded-hkl arrays. -/
structure MatchResult where
  top_matches : List VRow
  rhkls : List (List Vec3)
deriving DecidableEq

/-- Embedding of `match_vectors(peaks, library, mag_tol, angle_tol,
index_error_tol, n_peaks_to_index, n_best)` (source lines 199-350). -/
def match_vectors (g : Geom) (peaksArg : PeaksArg) (library : List VLibEntry)
    (mag_tol angle_tol index_error_tol : ℚ) (n_peaks_to_index n_best : ℕ) :
    Option MatchResult :=
  match unwrapPeaks peaksArg with
  | none => none
  | some peaks =>
    some { top_matches :=
             (library.enum.map (fun pe =>
               phaseBlock pe.1 n_best
                 (phaseSolutions g peaks pe.2 mag_tol angle_tol
                   index_error_tol n_peaks_to_index))).flatten,
           rhkls :=
             (library.map (fun e =>
               phaseRhkls g peaks e mag_tol angle_tol index_error_tol
                 n_peaks_to_index)).flatten }

/-!
Embedding of `correlate_library` (source lines 34-114).
-/

/-- One phase of the template library: ordered orientations (Euler triples),
the pixel-coordinate tensor of shape (in-plane rotations, orientations,
reflections) with `[x, y]` coordinate pairs, the matching intensity tensor,
and the precomputed per-orientation template norms (broadcast over the
in-plane axis by the correlation quotient).  Library invariant: the
coordinate and intensity tensors have identical extents. -/
structure TemplateEntry where
  orientations : List Vec3
  pixel_coords : List (List (List (ℕ × ℕ)))
  intensities : List (List (List ℚ))
  pattern_norms : List ℚ

/-- Pixel lookup `image[y, x]` for a coordinate pair `[x, y]` (the source
indexes `image[pixel_coords[..., 1], pixel_coords[..., 0]]`). -/
def imageAt (image : List (List ℚ)) (xy : ℕ × ℕ) : ℚ :=
  (image.getD xy.2 []).getD xy.1 0

/-- The correlation grid of one phase (source lines 96-98): for every
(in-plane rotation, orientation) cell, the sum over reflections of image
intensity times template intensity, divided by the template norm. -/
def corrGrid (image : List (List ℚ)) (e : TemplateEntry) : List (List ℚ) :=
  List.zipWith (fun pixRow intRow =>
      List.zipWith3 (fun pcs ints nrm =>
          (List.zipWith (fun pc v => imageAt image pc * v) pcs ints).sum / nrm)
        pixRow intRow e.pattern_norms)
    e.pixel_coords e.intensities

/-- One row of the `correlate_library` output:
`[phase index, [z, x, z], correlation]`.  The same record models the rows
consumed by `crystal_from_template_matching`. -/
structure TRow where
  phase : ℕ
  orientation : Vec3
  correlation : ℚ
deriving DecidableEq

/-- One phase's `n_largest` result rows (source lines 100-112): the flat
(`ravel`, row-major) correlation grid's top `n_largest` cells, ordered by
descending correlation, each unravelled into (in-plane index, orientation
index) and reported as the stored orientation plus the in-plane rotation
`inplane_index * 360 / (number of in-plane samples)` in the third Euler
angle.  `argpartition(-n)` is modelled by the stable argsort (valid for
`1 ≤ n_largest ≤` grid size, where the source does not raise). -/
def phaseTemplateBlock (image : List (List ℚ)) (e : TemplateEntry)
    (phase_index n_largest : ℕ) : List TRow :=
  let grid := corrGrid image e
  let flat := grid.flatten
  let nCols := (grid.getD 0 []).length
  let top0 := (argsortQ flat).drop (flat.length - n_largest)
  let vals0 := top0.map (fun i => flat.getD i 0)
  let top := ((argsortQ vals0).reverse).map (fun j => top0.getD j 0)
  top.map (fun fi =>
    let inplane_index := fi / nCols
    let orientation_index := fi % nCols
    { phase := phase_index,
      orientation := vadd (e.orientations.getD orientation_index v0)
        ⟨0, 0, (inplane_index : ℚ) * (360 / (e.pixel_coords.length : ℚ))⟩,
      correlation := flat.getD fi 0 })

/-- Embedding of `correlate_library(image, library, n_largest, mask)`
(source lines 34-114).  When the mask is unset the function returns the
uninitialised object array `np.empty(...)`, whose cells are `None`; result
cells are therefore `Option`-valued. -/
def correlate_library (image : List (List ℚ)) (library : List TemplateEntry)
    (n_largest : ℕ) (mask : Bool) : List (Option TRow) :=
  if mask then
    (library.enum.map (fun pe =>
      (phaseTemplateBlock image pe.2 pe.1 n_largest).map some)).flatten
  else
    List.replicate (library.length * n_largest) none

/-!
Embedding of `crystal_from_template_matching` (source lines 353-405) and
`crystal_from_vector_matching` (source lines 408-465).
-/

/-- The template-matching metrics dict; `phase_reliability` is only present
in the multi-phase branch. -/
structure TMetrics where
  correlation : ℚ
  orientation_reliability : ℚ
  phase_reliability : Option ℚ
deriving DecidableEq

/-- The `crystal_from_template_matching` result
`[phase, np.array((z, x, z)), dict(metrics)]`. -/
structure TResult where
  phase : ℕ
  orientation : Vec3
  metrics : TMetrics
deriving DecidableEq

/-- Embedding of `crystal_from_template_matching(z_matches)`.  A `none`
result models a raised `IndexError`/`ValueError` (out-of-bounds row index or
`np.partition`/`np.max`/`np.argmax` on too-short data). -/
def crystal_from_template_matching (zs : List TRow) : Option TResult :=
  if numUnique (zs.map (·.phase)) = 1 then
    match zs[0]?, zs[1]? with
    | some z0, some z1 =>
      some ⟨z0.phase, z0.orientation,
        ⟨z0.correlation, 100 * (1 - z1.correlation / z0.correlation), none⟩⟩
    | _, _ => none
  else
    match npArgmaxQ (zs.map (·.correlation)) with
    | none => none
    | some index_best_match =>
      match zs[index_best_match]? with
      | none => none
      | some best =>
        match npPartitionNegTwo
            ((zs.filter (fun r => r.phase == best.phase)).map
              (·.correlation)) with
        | none => none
        | some second_orientation =>
          match npMaxQ
              ((zs.filter (fun r => r.phase != best.phase)).map
                (·.correlation)) with
          | none => none
          | some second_phase =>
            some ⟨best.phase, best.orientation,
              ⟨best.correlation,
               100 * (1 - second_orientation / best.correlation),
               some (100 * (1 - second_phase / best.correlation))⟩⟩

/-- The vector-matching metrics dict; `phase_reliability` is only present in
the multi-phase branch. -/
structure VMetrics where
  match_rate : ℚ
  ehkls : List Vec3
  total_error : ℚ
  orientation_reliability : ℚ
  phase_reliability : Option ℚ
deriving DecidableEq

/-- The `crystal_from_vector_matching` result
`[phase, np.array((z, x, z)), dict(metrics)]`; the orientation is
`mat2euler(R, 'rzxz')`. -/
structure VResult where
  phase : ℕ
  orientation : Vec3
  metrics : VMetrics
deriving DecidableEq

/-- Embedding of `crystal_from_vector_matching(z_matches)`.  The external
`transforms3d` conversion `mat2euler(·, 'rzxz')` is the parameter
`mat2euler`.  A `none` result models a raised `IndexError`/`ValueError`. -/
def crystal_from_vector_matching (mat2euler : Mat3 → Vec3) (zs : List VRow) :
    Option VResult :=
  if numUnique (zs.map (·.phase)) = 1 then
    match zs[0]?, zs[1]? with
    | some z0, some z1 =>
      some ⟨z0.phase, mat2euler z0.R,
        ⟨z0.match_rate, z0.ehkls, z0.total_error,
         100 * (1 - z0.total_error / z1.total_error), none⟩⟩
    | _, _ => none
  else
    match npArgminQ (zs.map (·.total_error)) with
    | none => none
    | some index_best_match =>
      match zs[index_best_match]? with
      | none => none
      | some best =>
        match npPartitionOne
            ((zs.filter (fun r => r.phase == best.phase)).map
              (·.total_error)) with
        | none => none
        | some second_orientation =>
          match npMinQ
              ((zs.filter (fun r => r.phase != best.phase)).map
                (·.total_error)) with
          | none => none
          | some second_phase =>
            some ⟨best.phase, mat2euler best.R,
              ⟨best.match_rate, best.ehkls, best.total_error,
               100 * (1 - best.total_error / second_orientation),
               some (100 * (1 - best.total_error / second_phase))⟩⟩

/-! Default records for (provably in-range) list lookups, and small concrete
fixtures used by the claim witnesses and counterexamples. -/

/-- Default row for template-matching row lookups. -/
def defaultTRow : TRow := ⟨0, v0, 0⟩

/-- Default row for vector-matching row lookups. -/
def defaultVRow : VRow := ⟨0, identityMat, 0, [], 0⟩

/-- Default template-library entry for lookups. -/
def defaultTemplateEntry : TemplateEntry := ⟨[], [], [], []⟩

/-- Default vector-library entry for lookups. -/
def defaultVLibEntry : VLibEntry := ⟨[], [], ⟨id, id⟩⟩

/-- Concrete geometry fixture: the norm reads the x component. -/
def gFix : Geom := ⟨fun v => v.x, fun _ _ => 0, fun _ _ _ _ => identityMat⟩

/-- Concrete geometry fixture whose functions are all constant. -/
def gZero : Geom := ⟨fun _ => 0, fun _ _ => 0, fun _ _ _ _ => identityMat⟩

/-- A vector-library phase with an empty catalog (no candidates ever). -/
def entEmpty : VLibEntry := ⟨[], [], ⟨id, id⟩⟩

/-- A vector-library phase with one catalog row whose measurements are zero,
over the identity lattice conversions. -/
def entOne : VLibEntry := ⟨[(⟨1, 0, 0⟩, ⟨0, 1, 0⟩)], [(0, 0, 0)], ⟨id, id⟩⟩

/-- Three distinct concrete peaks. -/
def peaksFix : List Vec3 := [⟨1, 0, 0⟩, ⟨0, 2, 0⟩, ⟨0, 0, 3⟩]

/-- Three concrete integer peaks (indexed exactly by the identity). -/
def peaksInt : List Vec3 := [⟨1, 0, 0⟩, ⟨0, 1, 0⟩, ⟨1, 1, 0⟩]

/-- A concrete template-library phase: one in-plane row, two orientations,
one reflection each, unit norms. -/
def tEFix : TemplateEntry :=
  ⟨[⟨0, 0, 0⟩, ⟨10, 0, 0⟩], [[[(0, 0)], [(1, 0)]]], [[[2], [3]]], [1, 1]⟩

/-- A concrete one-row image. -/
def imageFix : List (List ℚ) := [[4, 5]]

/-- The solution produced for `peaksInt` by the identity rotation candidate
of `entOne` under `gZero`: all three peaks index exactly. -/
def solFix : Solution := ⟨identityMat, 1, [v0, v0, v0], 0, 0⟩

/-! Helper lemmas about the argsort and sorting models. -/

theorem argsortQ_perm_range (vals : List ℚ) :
    (argsortQ vals).Perm (List.range vals.length) :=
  List.perm_insertionSort _ _

theorem argsortQ_length (vals : List ℚ) :
    (argsortQ vals).length = vals.length := by
  simpa using (argsortQ_perm_range vals).length_eq

theorem argsortQ_nodup (vals : List ℚ) : (argsortQ vals).Nodup :=
  ((argsortQ_perm_range vals).nodup_iff).mpr (List.nodup_range _)

theorem mem_argsortQ {vals : List ℚ} {i : ℕ} :
    i ∈ argsortQ vals ↔ i < vals.length := by
  rw [(argsortQ_perm_range vals).mem_iff, List.mem_range]

theorem argsortQ_sorted (vals : List ℚ) :
    List.Sorted (lexLe vals) (argsortQ vals) :=
  List.sorted_insertionSort _ _

theorem map_getD_range (l : List ℚ) :
    (List.range l.length).map (fun i => l.getD i 0) = l := by
  apply List.ext_getElem
  · simp
  · intro i h1 h2
    simp [List.getD_eq_getElem?_getD, List.getElem?_eq_getElem h2]

theorem argsortQ_map_perm (vals : List ℚ) :
    ((argsortQ vals).map (fun i => vals.getD i 0)).Perm vals := by
  have h := (argsortQ_perm_range vals).map (fun i => vals.getD i 0)
  rwa [map_getD_range] at h

theorem argsortQ_map_sorted (vals : List ℚ) :
    List.Sorted (· ≤ ·) ((argsortQ vals).map (fun i => vals.getD i 0)) := by
  refine List.Pairwise.map _ ?_ (argsortQ_sorted vals)
  intro a b hab
  rcases hab with h | ⟨h, _⟩
  · exact le_of_lt h
  · exact le_of_eq h

theorem sortAscQ_sorted (l : List ℚ) : List.Sorted (· ≤ ·) (sortAscQ l) :=
  List.sorted_insertionSort _ _

theorem sortAscQ_perm (l : List ℚ) : (sortAscQ l).Perm l :=
  List.perm_insertionSort _ _

theorem sortAscQ_length (l : List ℚ) : (sortAscQ l).length = l.length :=
  List.length_insertionSort _ _

theorem argsortQ_map_eq_sortAscQ (vals : List ℚ) :
    (argsortQ vals).map (fun i => vals.getD i 0) = sortAscQ vals :=
  List.eq_of_perm_of_sorted
    ((argsortQ_map_perm vals).trans (sortAscQ_perm vals).symm)
    (argsortQ_map_sorted vals) (sortAscQ_sorted vals)

theorem sortAscQ_eq_self_of_sorted {l : List ℚ} (h : List.Sorted (· ≤ ·) l) :
    sortAscQ l = l :=
  List.Sorted.insertionSort_eq h

theorem sortAscQ_eq_reverse_of_sorted_ge {l : List ℚ}
    (h : List.Sorted (fun a b => b ≤ a) l) : sortAscQ l = l.reverse := by
  refine List.eq_of_perm_of_sorted ((sortAscQ_perm l).trans (List.reverse_perm l).symm)
    (sortAscQ_sorted l) ?_
  exact (List.pairwise_reverse).mpr h

theorem sortDescQ_eq_self_of_sorted_ge {l : List ℚ}
    (h : List.Sorted (fun a b => b ≤ a) l) : sortDescQ l = l := by
  rw [sortDescQ, sortAscQ_eq_reverse_of_sorted_ge h, List.reverse_reverse]

theorem sortDescQ_length (l : List ℚ) : (sortDescQ l).length = l.length := by
  simp [sortDescQ, sortAscQ_length]

/-! Helper lemmas about the numpy primitive models. -/

theorem npMaxQ_cons (x : ℚ) (xs : List ℚ) : ∃ m, npMaxQ (x :: xs) = some m := by
  cases h : npMaxQ xs with
  | none => exact ⟨x, by simp [npMaxQ, h]⟩
  | some m => exact ⟨max x m, by simp [npMaxQ, h]⟩

theorem npMaxQ_spec : ∀ {l : List ℚ} {m : ℚ}, npMaxQ l = some m →
    m ∈ l ∧ ∀ y ∈ l, y ≤ m := by
  intro l
  induction l with
  | nil => intro m h; simp [npMaxQ] at h
  | cons x xs ih =>
    intro m h
    cases hx : npMaxQ xs with
    | none =>
      cases xs with
      | nil =>
        simp [npMaxQ] at h
        subst h
        simp
      | cons y ys => obtain ⟨m', hm'⟩ := npMaxQ_cons y ys; rw [hm'] at hx; cases hx
    | some m' =>
      rw [npMaxQ, hx] at h
      simp at h
      obtain ⟨hm1, hm2⟩ := ih hx
      constructor
      · rcases max_choice x m' with hc | hc
        · rw [← h, hc]; exact List.mem_cons_self _ _
        · rw [← h, hc]; exact List.mem_cons_of_mem _ hm1
      · intro y hy
        rcases List.mem_cons.mp hy with hy | hy
        · rw [hy, ← h]; exact le_max_left _ _
        · exact le_trans (hm2 y hy) (le_trans (le_max_right x m') (le_of_eq h))

theorem npMinQ_cons (x : ℚ) (xs : List ℚ) : ∃ m, npMinQ (x :: xs) = some m := by
  cases h : npMinQ xs with
  | none => exact ⟨x, by simp [npMinQ, h]⟩
  | some m => exact ⟨min x m, by simp [npMinQ, h]⟩

theorem npMinQ_spec : ∀ {l : List ℚ} {m : ℚ}, npMinQ l = some m →
    m ∈ l ∧ ∀ y ∈ l, m ≤ y := by
  intro l
  induction l with
  | nil => intro m h; simp [npMinQ] at h
  | cons x xs ih =>
    intro m h
    cases hx : npMinQ xs with
    | none =>
      cases xs with
      | nil =>
        simp [npMinQ] at h
        subst h
        simp
      | cons y ys => obtain ⟨m', hm'⟩ := npMinQ_cons y ys; rw [hm'] at hx; cases hx
    | some m' =>
      rw [npMinQ, hx] at h
      simp at h
      obtain ⟨hm1, hm2⟩ := ih hx
      constructor
      · rcases min_choice x m' with hc | hc
        · rw [← h, hc]; exact List.mem_cons_self _ _
        · rw [← h, hc]; exact List.mem_cons_of_mem _ hm1
      · intro y hy
        rcases List.mem_cons.mp hy with hy | hy
        · rw [hy, ← h]; exact min_le_left _ _
        · exact le_trans (le_of_eq h.symm) (le_trans (min_le_right x m') (hm2 y hy))

theorem getD_mem_of_lt {α : Type} {l : List α} {n : ℕ} (d : α)
    (h : n < l.length) : l.getD n d ∈ l := by
  rw [List.getD_eq_getElem _ _ h]
  exact List.getElem_mem h

theorem npArgmaxQ_cons (x : ℚ) (xs : List ℚ) :
    ∃ i, npArgmaxQ (x :: xs) = some i := by
  rw [npArgmaxQ]
  cases h1 : npArgmaxQ xs with
  | none => exact ⟨0, rfl⟩
  | some j =>
    cases h2 : npMaxQ xs with
    | none => exact ⟨0, rfl⟩
    | some m =>
      by_cases hx : x < m
      · exact ⟨j + 1, by simp [hx]⟩
      · exact ⟨0, by simp [hx]⟩

theorem npArgminQ_cons (x : ℚ) (xs : List ℚ) :
    ∃ i, npArgminQ (x :: xs) = some i := by
  rw [npArgminQ]
  cases h1 : npArgminQ xs with
  | none => exact ⟨0, rfl⟩
  | some j =>
    cases h2 : npMinQ xs with
    | none => exact ⟨0, rfl⟩
    | some m =>
      by_cases hx : m < x
      · exact ⟨j + 1, by simp [hx]⟩
      · exact ⟨0, by simp [hx]⟩

theorem npArgmaxQ_spec : ∀ {l : List ℚ} {i : ℕ}, npArgmaxQ l = some i →
    i < l.length ∧ (∀ j, j < l.length → l.getD j 0 ≤ l.getD i 0) ∧
      (∀ j, j < i → l.getD j 0 < l.getD i 0) := by
  intro l
  induction l with
  | nil => intro i h; simp [npArgmaxQ] at h
  | cons x xs ih =>
    intro i h
    cases h1 : npArgmaxQ xs with
    | none =>
      cases xs with
      | nil =>
        simp [npArgmaxQ] at h
        subst h
        refine ⟨by simp, ?_, by omega⟩
        intro j hj
        have hj0 : j = 0 := by simpa using hj
        subst hj0
        exact le_refl _
      | cons y ys => obtain ⟨j, hj⟩ := npArgmaxQ_cons y ys; rw [hj] at h1; cases h1
    | some j =>
      cases h2 : npMaxQ xs with
      | none =>
        cases xs with
        | nil => simp [npArgmaxQ] at h1
        | cons y ys => obtain ⟨m, hm⟩ := npMaxQ_cons y ys; rw [hm] at h2; cases h2
      | some m =>
        rw [npArgmaxQ, h1, h2] at h
        change (if x < m then some (j + 1) else some 0) = some i at h
        obtain ⟨hjlen, hjmax, hjfirst⟩ := ih h1
        obtain ⟨hmmem, hmbound⟩ := npMaxQ_spec h2
        -- the tail maximum value equals the value at the tail argmax
        have hval : xs.getD j 0 = m := by
          apply le_antisymm
          · have := hmbound (xs.getD j 0) (getD_mem_of_lt 0 hjlen)
            exact this
          · rcases List.getElem_of_mem hmmem with ⟨k, hk, hkm⟩
            have := hjmax k hk
            rwa [List.getD_eq_getElem _ _ hk, hkm] at this
        by_cases hx : x < m
        · rw [if_pos hx] at h
          cases h
          refine ⟨by simpa using Nat.succ_lt_succ hjlen, ?_, ?_⟩
          · intro k hk
            cases k with
            | zero =>
              simp only [List.getD_cons_zero, List.getD_cons_succ]
              rw [hval]
              exact le_of_lt hx
            | succ k' =>
              simp only [List.getD_cons_succ]
              exact hjmax k' (by simpa using Nat.lt_of_succ_lt_succ hk)
          · intro k hk
            cases k with
            | zero =>
              simp only [List.getD_cons_zero, List.getD_cons_succ]
              rw [hval]
              exact hx
            | succ k' =>
              simp only [List.getD_cons_succ]
              exact hjfirst k' (Nat.lt_of_succ_lt_succ hk)
        · rw [if_neg hx] at h
          cases h
          push_neg at hx
          refine ⟨by simp, ?_, by omega⟩
          intro k hk
          cases k with
          | zero => exact le_refl _
          | succ k' =>
            simp only [List.getD_cons_zero, List.getD_cons_succ]
            have hk' : k' < xs.length := by simpa using Nat.lt_of_succ_lt_succ hk
            exact le_trans (hmbound _ (getD_mem_of_lt 0 hk')) hx

theorem npArgminQ_spec : ∀ {l : List ℚ} {i : ℕ}, npArgminQ l = some i →
    i < l.length ∧ (∀ j, j < l.length → l.getD i 0 ≤ l.getD j 0) ∧
      (∀ j, j < i → l.getD i 0 < l.getD j 0) := by
  intro l
  induction l with
  | nil => intro i h; simp [npArgminQ] at h
  | cons x xs ih =>
    intro i h
    cases h1 : npArgminQ xs with
    | none =>
      cases xs with
      | nil =>
        simp [npArgminQ] at h
        subst h
        refine ⟨by simp, ?_, by omega⟩
        intro j hj
        have hj0 : j = 0 := by simpa using hj
        subst hj0
        exact le_refl _
      | cons y ys => obtain ⟨j, hj⟩ := npArgminQ_cons y ys; rw [hj] at h1; cases h1
    | some j =>
      cases h2 : npMinQ xs with
      | none =>
        cases xs with
        | nil => simp [npArgminQ] at h1
        | cons y ys => obtain ⟨m, hm⟩ := npMinQ_cons y ys; rw [hm] at h2; cases h2
      | some m =>
        rw [npArgminQ, h1, h2] at h
        change (if m < x then some (j + 1) else some 0) = some i at h
        obtain ⟨hjlen, hjmin, hjfirst⟩ := ih h1
        obtain ⟨hmmem, hmbound⟩ := npMinQ_spec h2
        have hval : xs.getD j 0 = m := by
          apply le_antisymm
          · rcases List.getElem_of_mem hmmem with ⟨k, hk, hkm⟩
            have := hjmin k hk
            rwa [List.getD_eq_getElem _ _ hk, hkm] at this
          · exact hmbound (xs.getD j 0) (getD_mem_of_lt 0 hjlen)
        by_cases hx : m < x
        · rw [if_pos hx] at h
          cases h
          refine ⟨by simpa using Nat.succ_lt_succ hjlen, ?_, ?_⟩
          · intro k hk
            cases k with
            | zero =>
              simp only [List.getD_cons_zero, List.getD_cons_succ]
              rw [hval]
              exact le_of_lt hx
            | succ k' =>
              simp only [List.getD_cons_succ]
              exact hjmin k' (by simpa using Nat.lt_of_succ_lt_succ hk)
          · intro k hk
            cases k with
            | zero =>
              simp only [List.getD_cons_zero, List.getD_cons_succ]
              rw [hval]
              exact hx
            | succ k' =>
              simp only [List.getD_cons_succ]
              exact hjfirst k' (Nat.lt_of_succ_lt_succ hk)
        · rw [if_neg hx] at h
          cases h
          push_neg at hx
          refine ⟨by simp, ?_, by omega⟩
          intro k hk
          cases k with
          | zero => exact le_refl _
          | succ k' =>
            simp only [List.getD_cons_zero, List.getD_cons_succ]
            have hk' : k' < xs.length := by simpa using Nat.lt_of_succ_lt_succ hk
            exact le_trans hx (hmbound _ (getD_mem_of_lt 0 hk'))

theorem npArgmaxQ_eq_of_firstmax {l : List ℚ} {i : ℕ} (hlen : i < l.length)
    (hmax : ∀ j, j < l.length → l.getD j 0 ≤ l.getD i 0)
    (hfirst : ∀ j, j < i → l.getD j 0 < l.getD i 0) :
    npArgmaxQ l = some i := by
  cases l with
  | nil => simp at hlen
  | cons x xs =>
    obtain ⟨i', hi'⟩ := npArgmaxQ_cons x xs
    obtain ⟨h1, h2, h3⟩ := npArgmaxQ_spec hi'
    rcases Nat.lt_trichotomy i' i with hc | hc | hc
    · exact absurd (h2 i hlen) (not_le_of_lt (hfirst i' hc))
    · rw [hi', hc]
    · exact absurd (hmax i' h1) (not_le_of_lt (h3 i hc))

theorem npArgminQ_eq_of_firstmin {l : List ℚ} {i : ℕ} (hlen : i < l.length)
    (hmin : ∀ j, j < l.length → l.getD i 0 ≤ l.getD j 0)
    (hfirst : ∀ j, j < i → l.getD i 0 < l.getD j 0) :
    npArgminQ l = some i := by
  cases l with
  | nil => simp at hlen
  | cons x xs =>
    obtain ⟨i', hi'⟩ := npArgminQ_cons x xs
    obtain ⟨h1, h2, h3⟩ := npArgminQ_spec hi'
    rcases Nat.lt_trichotomy i' i with hc | hc | hc
    · exact absurd (h2 i hlen) (not_le_of_lt (hfirst i' hc))
    · rw [hi', hc]
    · exact absurd (hmin i' h1) (not_le_of_lt (h3 i hc))

theorem npPartitionNegTwo_none {l : List ℚ} (h : l.length < 2) :
    npPartitionNegTwo l = none := by
  simp [npPartitionNegTwo, h]

theorem getD_reverse {α : Type} {l : List α} {i : ℕ} (d : α)
    (h : i < l.length) : l.reverse.getD i d = l.getD (l.length - 1 - i) d := by
  have h1 : i < l.reverse.length := by simpa using h
  have h2 : l.length - 1 - i < l.length := by omega
  rw [List.getD_eq_getElem _ _ h1, List.getD_eq_getElem _ _ h2,
    List.getElem_reverse]

theorem npPartitionNegTwo_eq_sortDesc {l : List ℚ} (h : 2 ≤ l.length) :
    npPartitionNegTwo l = some ((sortDescQ l).getD 1 0) := by
  rw [npPartitionNegTwo, if_neg (by omega)]
  have hlen : l.length - 2 < (sortAscQ l).length := by rw [sortAscQ_length]; omega
  rw [List.getElem?_eq_getElem hlen]
  have hkey : (sortDescQ l).getD 1 0 = (sortAscQ l).getD (l.length - 2) 0 := by
    rw [sortDescQ, getD_reverse 0 (by rw [sortAscQ_length]; omega),
      sortAscQ_length]
    have harith : l.length - 1 - 1 = l.length - 2 := by omega
    rw [harith]
  rw [hkey, List.getD_eq_getElem _ _ hlen]

theorem npPartitionOne_none {l : List ℚ} (h : l.length < 2) :
    npPartitionOne l = none := by
  rw [npPartitionOne]
  apply List.getElem?_eq_none
  rw [sortAscQ_length]
  omega

theorem npPartitionOne_eq_sortAsc {l : List ℚ} (h : 2 ≤ l.length) :
    npPartitionOne l = some ((sortAscQ l).getD 1 0) := by
  have hlen : 1 < (sortAscQ l).length := by rw [sortAscQ_length]; omega
  rw [npPartitionOne, List.getElem?_eq_getElem hlen, List.getD_eq_getElem _ _ hlen]

/-! Helper lemmas about lists. -/

theorem getD_map {α β : Type} (f : α → β) {l : List α} {i : ℕ} (d : β) (a : α)
    (h : i < l.length) : (l.map f).getD i d = f (l.getD i a) := by
  have h' : i < (l.map f).length := by simpa using h
  rw [List.getD_eq_getElem _ _ h', List.getD_eq_getElem _ _ h, List.getElem_map]

theorem two_le_length_of_mem_ne {α : Type} {l : List α} {a b : α}
    (ha : a ∈ l) (hb : b ∈ l) (hab : a ≠ b) : 2 ≤ l.length := by
  match l with
  | [] => cases ha
  | [x] =>
    rw [List.mem_singleton] at ha hb
    exact absurd (ha.trans hb.symm) hab
  | x :: y :: t => simp [Nat.succ_le_succ]

theorem numUnique_eq_one {l : List ℕ} {p : ℕ} (hne : l ≠ [])
    (hall : ∀ x ∈ l, x = p) : numUnique l = 1 := by
  induction l with
  | nil => exact absurd rfl hne
  | cons x xs ih =>
    have hx : x = p := hall x (List.mem_cons_self _ _)
    cases xs with
    | nil => simp [numUnique]
    | cons y ys =>
      have hxs : numUnique (y :: ys) = 1 :=
        ih (by simp) (fun z hz => hall z (List.mem_cons_of_mem _ hz))
      have hmem : x ∈ y :: ys := by
        have hy : y = p := hall y (by simp)
        rw [hx, ← hy]
        exact List.mem_cons_self _ _
      rw [numUnique, List.dedup_cons_of_mem hmem]
      exact hxs

theorem two_le_numUnique {l : List ℕ} {a b : ℕ} (ha : a ∈ l) (hb : b ∈ l)
    (hab : a ≠ b) : 2 ≤ numUnique l :=
  two_le_length_of_mem_ne (List.mem_dedup.mpr ha) (List.mem_dedup.mpr hb) hab

theorem numUnique_ne_one_of_mem_ne {l : List ℕ} {a b : ℕ} (ha : a ∈ l)
    (hb : b ∈ l) (hab : a ≠ b) : numUnique l ≠ 1 := by
  have := two_le_numUnique ha hb hab
  omega

theorem length_flatten_const {α : Type} {ls : List (List α)} {n : ℕ}
    (h : ∀ b ∈ ls, b.length = n) : ls.flatten.length = ls.length * n := by
  induction ls with
  | nil => simp
  | cons b bs ih =>
    rw [List.flatten_cons, List.length_append, h b (List.mem_cons_self _ _),
      ih (fun c hc => h c (List.mem_cons_of_mem _ hc)), List.length_cons]
    ring

theorem flatten_drop_take {α : Type} {ls : List (List α)} {n : ℕ}
    (h : ∀ b ∈ ls, b.length = n) (k : ℕ) :
    ((ls.flatten).drop (k * n)).take n = (ls.getD k []).take n := by
  induction ls generalizing k with
  | nil => simp
  | cons b bs ih =>
    cases k with
    | zero =>
      rw [Nat.zero_mul, List.drop_zero, List.getD_cons_zero, List.flatten_cons]
      have hb : b.length = n := h b (List.mem_cons_self _ _)
      rw [List.take_append_of_le_length (le_of_eq hb.symm)]
    | succ k' =>
      rw [List.flatten_cons, List.getD_cons_succ]
      have hb : b.length = n := h b (List.mem_cons_self _ _)
      have harith : (k' + 1) * n = b.length + k' * n := by rw [hb]; ring
      rw [harith, List.drop_append]
      exact ih (fun c hc => h c (List.mem_cons_of_mem _ hc)) k'

/-! Evaluation lemmas for the two reducers. -/

theorem template_single_eval {zs : List TRow} {z0 z1 : TRow}
    (hu : numUnique (zs.map (·.phase)) = 1)
    (h0 : zs[0]? = some z0) (h1 : zs[1]? = some z1) :
    crystal_from_template_matching zs =
      some ⟨z0.phase, z0.orientation,
        ⟨z0.correlation, 100 * (1 - z1.correlation / z0.correlation), none⟩⟩ := by
  simp only [crystal_from_template_matching, if_pos hu, h0, h1]

theorem template_single_none {zs : List TRow}
    (hu : numUnique (zs.map (·.phase)) = 1) (h1 : zs[1]? = none) :
    crystal_from_template_matching zs = none := by
  simp only [crystal_from_template_matching, if_pos hu, h1]
  cases h0 : zs[0]? <;> rfl

theorem template_multi_eval {zs : List TRow} {i : ℕ} {best : TRow}
    {so sp : ℚ} (hu : numUnique (zs.map (·.phase)) ≠ 1)
    (hi : npArgmaxQ (zs.map (·.correlation)) = some i)
    (hbest : zs[i]? = some best)
    (hso : npPartitionNegTwo
      ((zs.filter (fun r => r.phase == best.phase)).map (·.correlation)) =
      some so)
    (hsp : npMaxQ
      ((zs.filter (fun r => r.phase != best.phase)).map (·.correlation)) =
      some sp) :
    crystal_from_template_matching zs =
      some ⟨best.phase, best.orientation,
        ⟨best.correlation, 100 * (1 - so / best.correlation),
         some (100 * (1 - sp / best.correlation))⟩⟩ := by
  simp only [crystal_from_template_matching, if_neg hu, hi, hbest, hso, hsp]

theorem template_multi_none {zs : List TRow} {i : ℕ} {best : TRow}
    (hu : numUnique (zs.map (·.phase)) ≠ 1)
    (hi : npArgmaxQ (zs.map (·.correlation)) = some i)
    (hbest : zs[i]? = some best)
    (hso : npPartitionNegTwo
      ((zs.filter (fun r => r.phase == best.phase)).map (·.correlation)) =
      none) :
    crystal_from_template_matching zs = none := by
  simp only [crystal_from_template_matching, if_neg hu, hi, hbest, hso]

theorem vector_single_eval (m2e : Mat3 → Vec3) {zs : List VRow} {z0 z1 : VRow}
    (hu : numUnique (zs.map (·.phase)) = 1)
    (h0 : zs[0]? = some z0) (h1 : zs[1]? = some z1) :
    crystal_from_vector_matching m2e zs =
      some ⟨z0.phase, m2e z0.R,
        ⟨z0.match_rate, z0.ehkls, z0.total_error,
         100 * (1 - z0.total_error / z1.total_error), none⟩⟩ := by
  simp only [crystal_from_vector_matching, if_pos hu, h0, h1]

theorem vector_single_none (m2e : Mat3 → Vec3) {zs : List VRow}
    (hu : numUnique (zs.map (·.phase)) = 1) (h1 : zs[1]? = none) :
    crystal_from_vector_matching m2e zs = none := by
  simp only [crystal_from_vector_matching, if_pos hu, h1]
  cases h0 : zs[0]? <;> rfl

theorem vector_multi_eval (m2e : Mat3 → Vec3) {zs : List VRow} {i : ℕ}
    {best : VRow} {so sp : ℚ} (hu : numUnique (zs.map (·.phase)) ≠ 1)
    (hi : npArgminQ (zs.map (·.total_error)) = some i)
    (hbest : zs[i]? = some best)
    (hso : npPartitionOne
      ((zs.filter (fun r => r.phase == best.phase)).map (·.total_error)) =
      some so)
    (hsp : npMinQ
      ((zs.filter (fun r => r.phase != best.phase)).map (·.total_error)) =
      some sp) :
    crystal_from_vector_matching m2e zs =
      some ⟨best.phase, m2e best.R,
        ⟨best.match_rate, best.ehkls, best.total_error,
         100 * (1 - best.total_error / so),
         some (100 * (1 - best.total_error / sp))⟩⟩ := by
  simp only [crystal_from_vector_matching, if_neg hu, hi, hbest, hso, hsp]

theorem vector_multi_none (m2e : Mat3 → Vec3) {zs : List VRow} {i : ℕ}
    {best : VRow} (hu : numUnique (zs.map (·.phase)) ≠ 1)
    (hi : npArgminQ (zs.map (·.total_error)) = some i)
    (hbest : zs[i]? = some best)
    (hso : npPartitionOne
      ((zs.filter (fun r => r.phase == best.phase)).map (·.total_error)) =
      none) :
    crystal_from_vector_matching m2e zs = none := by
  simp only [crystal_from_vector_matching, if_neg hu, hi, hbest, hso]

/-! Helper lemmas about `sort_solutions`. -/

theorem map_getD_range_gen {α : Type} (l : List α) (d : α) :
    (List.range l.length).map (fun i => l.getD i d) = l := by
  apply List.ext_getElem
  · simp
  · intro i h1 h2
    simp [List.getD_eq_getElem?_getD, List.getElem?_eq_getElem h2]

theorem map_getD_subperm {α : Type} (l : List α) (d : α) {I : List ℕ}
    (hn : I.Nodup) (hlt : ∀ i ∈ I, i < l.length) :
    (I.map (fun i => l.getD i d)).Subperm l := by
  obtain ⟨mid, hperm, hsub⟩ :=
    List.subperm_of_subset hn (fun i hi => List.mem_range.mpr (hlt i hi))
  refine ⟨mid.map (fun i => l.getD i d), hperm.map _, ?_⟩
  have h2 := hsub.map (fun i => l.getD i d)
  rwa [map_getD_range_gen] at h2

theorem getD_of_length_le {α : Type} {l : List α} {n : ℕ} (d : α)
    (h : l.length ≤ n) : l.getD n d = d := by
  rw [List.getD_eq_getElem?_getD, List.getElem?_eq_none h]
  rfl

theorem match_rate_getD (solutions : List Solution) (i : ℕ) :
    (solutions.getD i defaultSolution).match_rate =
      (solutions.map (·.match_rate)).getD i 0 := by
  by_cases h : i < solutions.length
  · exact (getD_map _ 0 defaultSolution h).symm
  · push_neg at h
    rw [getD_of_length_le defaultSolution h,
      getD_of_length_le 0 (by simpa using h)]
    rfl

theorem sort_solutions_length (solutions : List Solution) (n : ℕ) :
    (sort_solutions solutions n).length = min n solutions.length := by
  simp only [sort_solutions]
  rw [List.length_map, List.length_take, List.length_reverse, argsortQ_length,
    List.length_map]
  omega

theorem sort_solutions_subperm (solutions : List Solution) (n : ℕ) :
    (sort_solutions solutions n).Subperm solutions := by
  simp only [sort_solutions]
  apply map_getD_subperm
  · exact (List.nodup_reverse.mpr (argsortQ_nodup _)).sublist
      (List.take_sublist _ _)
  · intro i hi
    have h1 : i ∈ argsortQ (solutions.map (·.match_rate)) :=
      List.mem_reverse.mp (List.mem_of_mem_take hi)
    have h2 := mem_argsortQ.mp h1
    simpa using h2

theorem sort_solutions_sorted (solutions : List Solution) (n : ℕ) :
    List.Sorted (fun a b => b.match_rate ≤ a.match_rate)
      (sort_solutions solutions n) := by
  simp only [sort_solutions]
  have h1 : List.Pairwise
      (fun a b => lexLe (solutions.map (·.match_rate)) b a)
      ((argsortQ (solutions.map (·.match_rate))).reverse) :=
    List.pairwise_reverse.mpr (argsortQ_sorted _)
  have h2 := h1.sublist (List.take_sublist (min n solutions.length) _)
  refine List.Pairwise.map _ ?_ h2
  intro a b hab
  rw [match_rate_getD, match_rate_getD]
  rcases hab with h | ⟨h, _⟩
  · exact le_of_lt h
  · exact le_of_eq h

theorem sort_solutions_rates (solutions : List Solution) (n : ℕ) :
    (sort_solutions solutions n).map (·.match_rate) =
      (sortDescQ (solutions.map (·.match_rate))).take
        (min n solutions.length) := by
  simp only [sort_solutions]
  rw [List.map_map]
  have hcong : ((fun s : Solution => s.match_rate) ∘
        fun i => solutions.getD i defaultSolution) =
      fun i => (solutions.map (·.match_rate)).getD i 0 := by
    funext i
    exact match_rate_getD solutions i
  rw [hcong, List.map_take, List.map_reverse, argsortQ_map_eq_sortAscQ]
  rfl

/-! Claim theorems. -/

/-- C10: at the public interface, a `peaks` argument that is a single-element
object array (shape `(1,)`, object dtype) is unwrapped to its first element,
and `match_vectors` produces the same result as if the unwrapped vector array
had been passed directly. -/
theorem matchVectors_unwraps_object_peaks (g : Geom) (v : List Vec3)
    (library : List VLibEntry) (mag_tol angle_tol index_error_tol : ℚ)
    (n_peaks_to_index n_best : ℕ) :
    match_vectors g (.obj [v]) library mag_tol angle_tol index_error_tol
        n_peaks_to_index n_best =
      match_vectors g (.arr v) library mag_tol angle_tol index_error_tol
        n_peaks_to_index n_best := rfl

/-- C5 counterexample: two solutions with equal match rate are returned in
reverse of their input order, not in stable input order (the source reverses
an ascending argsort).  The two solutions differ (in `error_mean` and
`vector_pair_index`), so the output list is not the input list. -/
theorem sortSolutions_tie_counterexample :
    (⟨identityMat, 1/2, [], 1, 0⟩ : Solution).match_rate =
        (⟨identityMat, 1/2, [], 2, 1⟩ : Solution).match_rate ∧
      sort_solutions
          [⟨identityMat, 1/2, [], 1, 0⟩, ⟨identityMat, 1/2, [], 2, 1⟩] 2 =
        [⟨identityMat, 1/2, [], 2, 1⟩, ⟨identityMat, 1/2, [], 1, 0⟩] ∧
      ([⟨identityMat, 1/2, [], 2, 1⟩, ⟨identityMat, 1/2, [], 1, 0⟩] ≠
        ([⟨identityMat, 1/2, [], 1, 0⟩, ⟨identityMat, 1/2, [], 2, 1⟩] :
          List Solution)) := by
  refine ⟨rfl, ?_, by with_unfolding_all decide⟩
  with_unfolding_all decide

/-- C5 (amended): `_sort_solutions` returns `min(n_best, count)` solutions
drawn from the input without repetition, sorted by descending match rate as
the sole ranking key, and the returned match rates are exactly the largest
ones (the prefix of the descending-sorted rate list); solutions of equal
match rate are however returned in reverse of their input order (see the
counterexample), not in stable input order. -/
theorem sortSolutions_ranking (solutions : List Solution) (n_solutions : ℕ) :
    (sort_solutions solutions n_solutions).length =
        min n_solutions solutions.length ∧
      (sort_solutions solutions n_solutions).Subperm solutions ∧
      List.Sorted (fun a b => b.match_rate ≤ a.match_rate)
        (sort_solutions solutions n_solutions) ∧
      (sort_solutions solutions n_solutions).map (·.match_rate) =
        (sortDescQ (solutions.map (·.match_rate))).take
          (min n_solutions solutions.length) :=
  ⟨sort_solutions_length solutions n_solutions,
   sort_solutions_subperm solutions n_solutions,
   sort_solutions_sorted solutions n_solutions,
   sort_solutions_rates solutions n_solutions⟩

/-- C9: when the winning phase has fewer than 2 candidate rows and a
reliability metric requires a runner-up, both reducers fail with an explicit
error (modelled by `none`: the source raises `IndexError` on `z_matches[1]`
in the single-phase branch and `ValueError` from `np.partition` in the
multi-phase branch) instead of returning a degenerate result.  The
multi-phase winner is characterised as the first row attaining the extremal
score, which is exactly `np.argmax`/`np.argmin`. -/
theorem reducers_error_without_runner_up :
    (∀ z : TRow, crystal_from_template_matching [z] = none) ∧
      (∀ (zs : List TRow) (i : ℕ),
        numUnique (zs.map (·.phase)) ≠ 1 →
        i < zs.length →
        (∀ j, j < zs.length → (zs.map (·.correlation)).getD j 0 ≤
          (zs.map (·.correlation)).getD i 0) →
        (∀ j, j < i → (zs.map (·.correlation)).getD j 0 <
          (zs.map (·.correlation)).getD i 0) →
        (zs.filter (fun r => r.phase == (zs.getD i defaultTRow).phase)).length
          = 1 →
        crystal_from_template_matching zs = none) ∧
      (∀ (m2e : Mat3 → Vec3) (z : VRow),
        crystal_from_vector_matching m2e [z] = none) ∧
      (∀ (m2e : Mat3 → Vec3) (zs : List VRow) (i : ℕ),
        numUnique (zs.map (·.phase)) ≠ 1 →
        i < zs.length →
        (∀ j, j < zs.length → (zs.map (·.total_error)).getD i 0 ≤
          (zs.map (·.total_error)).getD j 0) →
        (∀ j, j < i → (zs.map (·.total_error)).getD i 0 <
          (zs.map (·.total_error)).getD j 0) →
        (zs.filter (fun r => r.phase == (zs.getD i defaultVRow).phase)).length
          = 1 →
        crystal_from_vector_matching m2e zs = none) := by
  refine ⟨?_, ?_, ?_, ?_⟩
  · intro z
    apply template_single_none
    · simp [numUnique]
    · rfl
  · intro zs i hu hi hmax hfirst hwin
    have hi' : i < (zs.map (·.correlation)).length := by simpa using hi
    have harg : npArgmaxQ (zs.map (·.correlation)) = some i :=
      npArgmaxQ_eq_of_firstmax hi'
        (fun j hj => hmax j (by simpa using hj)) hfirst
    have hbest : zs[i]? = some (zs.getD i defaultTRow) := by
      rw [List.getD_eq_getElem _ _ hi, List.getElem?_eq_getElem hi]
    apply template_multi_none hu harg hbest
    apply npPartitionNegTwo_none
    rw [List.length_map, hwin]
    omega
  · intro m2e z
    apply vector_single_none m2e
    · simp [numUnique]
    · rfl
  · intro m2e zs i hu hi hmin hfirst hwin
    have hi' : i < (zs.map (·.total_error)).length := by simpa using hi
    have harg : npArgminQ (zs.map (·.total_error)) = some i :=
      npArgminQ_eq_of_firstmin hi'
        (fun j hj => hmin j (by simpa using hj)) hfirst
    have hbest : zs[i]? = some (zs.getD i defaultVRow) := by
      rw [List.getD_eq_getElem _ _ hi, List.getElem?_eq_getElem hi]
    apply vector_multi_none m2e hu harg hbest
    apply npPartitionOne_none
    rw [List.length_map, hwin]
    omega

/-- C9 witness: concrete failing calls.  A single-phase template input with
one row; a two-phase template input whose winning phase (phase 0, the global
maximum 5) has a single row; and the vector analogues. -/
theorem reducers_error_witness :
    crystal_from_template_matching [⟨7, v0, 9/10⟩] = none ∧
      crystal_from_template_matching [⟨0, v0, 5⟩, ⟨1, v0, 3⟩] = none ∧
      crystal_from_vector_matching (fun _ => v0) [⟨7, identityMat, 1, [], 1⟩]
        = none ∧
      crystal_from_vector_matching (fun _ => v0)
        [⟨0, identityMat, 1, [], 2⟩, ⟨1, identityMat, 1, [], 3⟩] = none := by
  refine ⟨reducers_error_without_runner_up.1 _, ?_, ?_, ?_⟩
  · apply reducers_error_without_runner_up.2.1 _ 0
    · with_unfolding_all decide
    · with_unfolding_all decide
    · intro j hj
      simp only [List.length_cons, List.length_nil] at hj
      interval_cases j <;> with_unfolding_all decide
    · omega
    · with_unfolding_all decide
  · exact reducers_error_without_runner_up.2.2.1 _ _
  · apply reducers_error_without_runner_up.2.2.2 _ _ 0
    · with_unfolding_all decide
    · with_unfolding_all decide
    · intro j hj
      simp only [List.length_cons, List.length_nil] at hj
      interval_cases j <;> with_unfolding_all decide
    · omega
    · with_unfolding_all decide

/-- C3: on a single-phase input (all rows one phase, at least two rows,
sorted best-first), each reducer returns the first row as best and sets
`orientation_reliability = 100 * (1 - ratio)`, where the ratio is
second-best correlation over best correlation for template matching and
best total error over second-best total error for vector matching (the
order statistics of the score column), and no `phase_reliability` key is
present (`none`). -/
theorem reducers_single_phase :
    (∀ (zs : List TRow) (p : ℕ),
      2 ≤ zs.length →
      (∀ r ∈ zs, r.phase = p) →
      List.Sorted (fun a b : ℚ => b ≤ a) (zs.map (·.correlation)) →
      crystal_from_template_matching zs =
        some ⟨(zs.getD 0 defaultTRow).phase, (zs.getD 0 defaultTRow).orientation,
          ⟨(sortDescQ (zs.map (·.correlation))).getD 0 0,
           100 * (1 - (sortDescQ (zs.map (·.correlation))).getD 1 0 /
             (sortDescQ (zs.map (·.correlation))).getD 0 0),
           none⟩⟩) ∧
      (∀ (m2e : Mat3 → Vec3) (zs : List VRow) (p : ℕ),
        2 ≤ zs.length →
        (∀ r ∈ zs, r.phase = p) →
        List.Sorted (fun a b : ℚ => a ≤ b) (zs.map (·.total_error)) →
        crystal_from_vector_matching m2e zs =
          some ⟨(zs.getD 0 defaultVRow).phase,
            m2e (zs.getD 0 defaultVRow).R,
            ⟨(zs.getD 0 defaultVRow).match_rate,
             (zs.getD 0 defaultVRow).ehkls,
             (sortAscQ (zs.map (·.total_error))).getD 0 0,
             100 * (1 - (sortAscQ (zs.map (·.total_error))).getD 0 0 /
               (sortAscQ (zs.map (·.total_error))).getD 1 0),
             none⟩⟩) := by
  constructor
  · intro zs p hlen hall hsort
    have h0 : 0 < zs.length := by omega
    have h1 : 1 < zs.length := by omega
    have hz0 : zs[0]? = some (zs.getD 0 defaultTRow) := by
      rw [List.getD_eq_getElem _ _ h0, List.getElem?_eq_getElem h0]
    have hz1 : zs[1]? = some (zs.getD 1 defaultTRow) := by
      rw [List.getD_eq_getElem _ _ h1, List.getElem?_eq_getElem h1]
    have hu : numUnique (zs.map (·.phase)) = 1 := by
      apply numUnique_eq_one
      · intro hnil
        rw [List.map_eq_nil_iff] at hnil
        subst hnil
        simp at hlen
      · intro x hx
        obtain ⟨r, hr, hrx⟩ := List.mem_map.mp hx
        rw [← hrx]
        exact hall r hr
    rw [template_single_eval hu hz0 hz1,
      sortDescQ_eq_self_of_sorted_ge hsort,
      getD_map _ 0 defaultTRow h0, getD_map _ 0 defaultTRow h1]
  · intro m2e zs p hlen hall hsort
    have h0 : 0 < zs.length := by omega
    have h1 : 1 < zs.length := by omega
    have hz0 : zs[0]? = some (zs.getD 0 defaultVRow) := by
      rw [List.getD_eq_getElem _ _ h0, List.getElem?_eq_getElem h0]
    have hz1 : zs[1]? = some (zs.getD 1 defaultVRow) := by
      rw [List.getD_eq_getElem _ _ h1, List.getElem?_eq_getElem h1]
    have hu : numUnique (zs.map (·.phase)) = 1 := by
      apply numUnique_eq_one
      · intro hnil
        rw [List.map_eq_nil_iff] at hnil
        subst hnil
        simp at hlen
      · intro x hx
        obtain ⟨r, hr, hrx⟩ := List.mem_map.mp hx
        rw [← hrx]
        exact hall r hr
    rw [vector_single_eval m2e hu hz0 hz1, sortAscQ_eq_self_of_sorted hsort,
      getD_map _ 0 defaultVRow h0, getD_map _ 0 defaultVRow h1]

/-- C3 witness: the claim's concrete scenario.  A single phase with
correlations `[0.9, 0.5]` gives `orientation_reliability = 400/9 ≈ 44.4` and
no `phase_reliability` key; a single-phase vector input with total errors
`[0.01, 0.02]` gives `orientation_reliability = 50`. -/
theorem reducers_single_phase_witness :
    (2 ≤ 2 ∧
      List.Sorted (fun a b : ℚ => b ≤ a) [9/10, 1/2] ∧
      crystal_from_template_matching
          [⟨7, ⟨1, 2, 3⟩, 9/10⟩, ⟨7, ⟨4, 5, 6⟩, 1/2⟩] =
        some ⟨7, ⟨1, 2, 3⟩, ⟨9/10, 400/9, none⟩⟩) ∧
      crystal_from_vector_matching (fun _ => v0)
          [⟨3, identityMat, 1, [], 1/100⟩, ⟨3, identityMat, 1, [], 1/50⟩] =
        some ⟨3, v0, ⟨1, [], 1/100, 50, none⟩⟩ := by
  refine ⟨⟨le_refl 2, by with_unfolding_all decide, ?_⟩, ?_⟩
  · refine (reducers_single_phase.1
      [⟨7, ⟨1, 2, 3⟩, 9/10⟩, ⟨7, ⟨4, 5, 6⟩, 1/2⟩] 7
      (by with_unfolding_all decide) (by with_unfolding_all decide)
      (by with_unfolding_all decide)).trans ?_
    with_unfolding_all decide
  · refine (reducers_single_phase.2 (fun _ => v0)
      [⟨3, identityMat, 1, [], 1/100⟩, ⟨3, identityMat, 1, [], 1/50⟩] 3
      (by with_unfolding_all decide) (by with_unfolding_all decide)
      (by with_unfolding_all decide)).trans ?_
    with_unfolding_all decide

/-! Helper lemmas for the multi-phase reducer branches. -/

theorem sortDescQ_perm (l : List ℚ) : (sortDescQ l).Perm l :=
  (List.reverse_perm _).trans (sortAscQ_perm l)

theorem sortDescQ_sorted (l : List ℚ) :
    List.Sorted (fun a b : ℚ => b ≤ a) (sortDescQ l) :=
  List.pairwise_reverse.mpr (sortAscQ_sorted l)

theorem le_head_of_sorted_ge {l : List ℚ} {y : ℚ} (d : ℚ)
    (hs : List.Sorted (fun a b : ℚ => b ≤ a) l) (hy : y ∈ l) :
    y ≤ l.getD 0 d := by
  cases l with
  | nil => cases hy
  | cons h t =>
    rw [List.getD_cons_zero]
    rcases List.mem_cons.mp hy with hy | hy
    · exact le_of_eq hy
    · exact List.rel_of_sorted_cons hs y hy

theorem head_le_of_sorted_le {l : List ℚ} {y : ℚ} (d : ℚ)
    (hs : List.Sorted (fun a b : ℚ => a ≤ b) l) (hy : y ∈ l) :
    l.getD 0 d ≤ y := by
  cases l with
  | nil => cases hy
  | cons h t =>
    rw [List.getD_cons_zero]
    rcases List.mem_cons.mp hy with hy | hy
    · exact le_of_eq hy.symm
    · exact List.rel_of_sorted_cons hs y hy

theorem npMaxQ_eq_sortDesc_head {l : List ℚ} (h : l ≠ []) :
    npMaxQ l = some ((sortDescQ l).getD 0 0) := by
  obtain ⟨x, xs, rfl⟩ := List.exists_cons_of_ne_nil h
  obtain ⟨m, hm⟩ := npMaxQ_cons x xs
  obtain ⟨hmem, hbound⟩ := npMaxQ_spec hm
  rw [hm]
  congr 1
  have hlen : 0 < (sortDescQ (x :: xs)).length := by
    rw [sortDescQ_length]
    simp
  have hmem' : (sortDescQ (x :: xs)).getD 0 0 ∈ x :: xs :=
    (sortDescQ_perm _).mem_iff.mp (getD_mem_of_lt 0 hlen)
  apply le_antisymm
  · exact le_head_of_sorted_ge 0 (sortDescQ_sorted _)
      ((sortDescQ_perm _).mem_iff.mpr hmem)
  · exact hbound _ hmem'

theorem npMinQ_eq_sortAsc_head {l : List ℚ} (h : l ≠ []) :
    npMinQ l = some ((sortAscQ l).getD 0 0) := by
  obtain ⟨x, xs, rfl⟩ := List.exists_cons_of_ne_nil h
  obtain ⟨m, hm⟩ := npMinQ_cons x xs
  obtain ⟨hmem, hbound⟩ := npMinQ_spec hm
  rw [hm]
  congr 1
  have hlen : 0 < (sortAscQ (x :: xs)).length := by
    rw [sortAscQ_length]
    simp
  have hmem' : (sortAscQ (x :: xs)).getD 0 0 ∈ x :: xs :=
    (sortAscQ_perm _).mem_iff.mp (getD_mem_of_lt 0 hlen)
  apply le_antisymm
  · exact hbound _ hmem'
  · exact head_le_of_sorted_le 0 (sortAscQ_sorted _)
      ((sortAscQ_perm _).mem_iff.mpr hmem)

theorem exists_ne_of_two_le_numUnique {l : List ℕ} (h : 2 ≤ numUnique l)
    (a : ℕ) : ∃ b ∈ l, b ≠ a := by
  rw [numUnique] at h
  match hd : l.dedup with
  | [] => rw [hd] at h; simp at h
  | [x] => rw [hd] at h; simp at h
  | x :: y :: t =>
    have hnd : (x :: y :: t).Nodup := hd ▸ l.nodup_dedup
    have hxy : x ≠ y := by
      intro hcon
      rw [hcon] at hnd
      exact (List.nodup_cons.mp hnd).1 (List.mem_cons_self _ _)
    have hx : x ∈ l := List.mem_dedup.mp (hd ▸ List.mem_cons_self _ _)
    have hy : y ∈ l := List.mem_dedup.mp
      (hd ▸ List.mem_cons_of_mem _ (List.mem_cons_self _ _))
    by_cases hxa : x = a
    · exact ⟨y, hy, fun hya => hxy (hxa.trans hya.symm)⟩
    · exact ⟨x, hx, hxa⟩

theorem competing_rows_ne_nil_template (zs : List TRow) (p : ℕ)
    (h : 2 ≤ numUnique (zs.map (·.phase))) :
    (zs.filter (fun r => r.phase != p)).map (·.correlation) ≠ [] := by
  obtain ⟨b, hb, hbne⟩ := exists_ne_of_two_le_numUnique h p
  obtain ⟨r, hr, hrb⟩ := List.mem_map.mp hb
  have hrC : r ∈ zs.filter (fun r => r.phase != p) := by
    rw [List.mem_filter]
    exact ⟨hr, by simp [bne_iff_ne, hrb ▸ hbne]⟩
  intro hnil
  rw [List.map_eq_nil_iff] at hnil
  rw [hnil] at hrC
  cases hrC

theorem competing_rows_ne_nil_vector (zs : List VRow) (p : ℕ)
    (h : 2 ≤ numUnique (zs.map (·.phase))) :
    (zs.filter (fun r => r.phase != p)).map (·.total_error) ≠ [] := by
  obtain ⟨b, hb, hbne⟩ := exists_ne_of_two_le_numUnique h p
  obtain ⟨r, hr, hrb⟩ := List.mem_map.mp hb
  have hrC : r ∈ zs.filter (fun r => r.phase != p) := by
    rw [List.mem_filter]
    exact ⟨hr, by simp [bne_iff_ne, hrb ▸ hbne]⟩
  intro hnil
  rw [List.map_eq_nil_iff] at hnil
  rw [hnil] at hrC
  cases hrC

/-- Full evaluation of the multi-phase branch of
`crystal_from_template_matching`, shared by the claim theorems. -/
theorem template_multi_full (zs : List TRow) (i : ℕ)
    (hu : 2 ≤ numUnique (zs.map (·.phase)))
    (hi : i < zs.length)
    (hmax : ∀ j, j < zs.length → (zs.map (·.correlation)).getD j 0 ≤
      (zs.map (·.correlation)).getD i 0)
    (hfirst : ∀ j, j < i → (zs.map (·.correlation)).getD j 0 <
      (zs.map (·.correlation)).getD i 0)
    (hwin : 2 ≤ (zs.filter
      (fun r => r.phase == (zs.getD i defaultTRow).phase)).length) :
    crystal_from_template_matching zs =
      some ⟨(zs.getD i defaultTRow).phase,
        (zs.getD i defaultTRow).orientation,
        ⟨(zs.getD i defaultTRow).correlation,
         100 * (1 - (sortDescQ ((zs.filter
             (fun r => r.phase == (zs.getD i defaultTRow).phase)).map
             (·.correlation))).getD 1 0 /
           (zs.getD i defaultTRow).correlation),
         some (100 * (1 - (sortDescQ ((zs.filter
             (fun r => r.phase != (zs.getD i defaultTRow).phase)).map
             (·.correlation))).getD 0 0 /
           (zs.getD i defaultTRow).correlation))⟩⟩ := by
  have hu' : numUnique (zs.map (·.phase)) ≠ 1 := by omega
  have hi' : i < (zs.map (·.correlation)).length := by simpa using hi
  have harg : npArgmaxQ (zs.map (·.correlation)) = some i :=
    npArgmaxQ_eq_of_firstmax hi'
      (fun j hj => hmax j (by simpa using hj)) hfirst
  have hbest : zs[i]? = some (zs.getD i defaultTRow) := by
    rw [List.getD_eq_getElem _ _ hi, List.getElem?_eq_getElem hi]
  have hWlen : 2 ≤ ((zs.filter
      (fun r => r.phase == (zs.getD i defaultTRow).phase)).map
      (·.correlation)).length := by
    simpa using hwin
  have hso := npPartitionNegTwo_eq_sortDesc hWlen
  have hC := competing_rows_ne_nil_template zs
    ((zs.getD i defaultTRow).phase) hu
  have hsp := npMaxQ_eq_sortDesc_head hC
  rw [template_multi_eval hu' harg hbest hso hsp]

/-- Full evaluation of the multi-phase branch of
`crystal_from_vector_matching`, shared by the claim theorems. -/
theorem vector_multi_full (m2e : Mat3 → Vec3) (zs : List VRow) (i : ℕ)
    (hu : 2 ≤ numUnique (zs.map (·.phase)))
    (hi : i < zs.length)
    (hmin : ∀ j, j < zs.length → (zs.map (·.total_error)).getD i 0 ≤
      (zs.map (·.total_error)).getD j 0)
    (hfirst : ∀ j, j < i → (zs.map (·.total_error)).getD i 0 <
      (zs.map (·.total_error)).getD j 0)
    (hwin : 2 ≤ (zs.filter
      (fun r => r.phase == (zs.getD i defaultVRow).phase)).length) :
    crystal_from_vector_matching m2e zs =
      some ⟨(zs.getD i defaultVRow).phase,
        m2e (zs.getD i defaultVRow).R,
        ⟨(zs.getD i defaultVRow).match_rate,
         (zs.getD i defaultVRow).ehkls,
         (zs.getD i defaultVRow).total_error,
         100 * (1 - (zs.getD i defaultVRow).total_error /
           (sortAscQ ((zs.filter
             (fun r => r.phase == (zs.getD i defaultVRow).phase)).map
             (·.total_error))).getD 1 0),
         some (100 * (1 - (zs.getD i defaultVRow).total_error /
           (sortAscQ ((zs.filter
             (fun r => r.phase != (zs.getD i defaultVRow).phase)).map
             (·.total_error))).getD 0 0))⟩⟩ := by
  have hu' : numUnique (zs.map (·.phase)) ≠ 1 := by omega
  have hi' : i < (zs.map (·.total_error)).length := by simpa using hi
  have harg : npArgminQ (zs.map (·.total_error)) = some i :=
    npArgminQ_eq_of_firstmin hi'
      (fun j hj => hmin j (by simpa using hj)) hfirst
  have hbest : zs[i]? = some (zs.getD i defaultVRow) := by
    rw [List.getD_eq_getElem _ _ hi, List.getElem?_eq_getElem hi]
  have hWlen : 2 ≤ ((zs.filter
      (fun r => r.phase == (zs.getD i defaultVRow).phase)).map
      (·.total_error)).length := by
    simpa using hwin
  have hso := npPartitionOne_eq_sortAsc hWlen
  have hC := competing_rows_ne_nil_vector zs
    ((zs.getD i defaultVRow).phase) hu
  have hsp := npMinQ_eq_sortAsc_head hC
  rw [vector_multi_eval m2e hu' harg hbest hso hsp]

/-- C1: on a multi-phase input, `crystal_from_template_matching` picks the
global best candidate (the first row attaining the maximal correlation, i.e.
`np.argmax`) and `crystal_from_vector_matching` the global argmin of total
error; `orientation_reliability` compares the best candidate against the
second-best candidate within the winning phase (second entry of that phase's
descending correlation order for templates, of the ascending error order for
vectors), `phase_reliability` against the best candidate among all competing
phases, both as `100 * (1 - ratio)` with the ratio oriented per mode.  The
winning phase must hold at least two rows (the reliability precondition). -/
theorem reducers_multi_phase :
    (∀ (zs : List TRow) (i : ℕ),
      2 ≤ numUnique (zs.map (·.phase)) →
      i < zs.length →
      (∀ j, j < zs.length → (zs.map (·.correlation)).getD j 0 ≤
        (zs.map (·.correlation)).getD i 0) →
      (∀ j, j < i → (zs.map (·.correlation)).getD j 0 <
        (zs.map (·.correlation)).getD i 0) →
      2 ≤ (zs.filter
        (fun r => r.phase == (zs.getD i defaultTRow).phase)).length →
      crystal_from_template_matching zs =
        some ⟨(zs.getD i defaultTRow).phase,
          (zs.getD i defaultTRow).orientation,
          ⟨(zs.getD i defaultTRow).correlation,
           100 * (1 - (sortDescQ ((zs.filter
               (fun r => r.phase == (zs.getD i defaultTRow).phase)).map
               (·.correlation))).getD 1 0 /
             (zs.getD i defaultTRow).correlation),
           some (100 * (1 - (sortDescQ ((zs.filter
               (fun r => r.phase != (zs.getD i defaultTRow).phase)).map
               (·.correlation))).getD 0 0 /
             (zs.getD i defaultTRow).correlation))⟩⟩) ∧
      (∀ (m2e : Mat3 → Vec3) (zs : List VRow) (i : ℕ),
        2 ≤ numUnique (zs.map (·.phase)) →
        i < zs.length →
        (∀ j, j < zs.length → (zs.map (·.total_error)).getD i 0 ≤
          (zs.map (·.total_error)).getD j 0) →
        (∀ j, j < i → (zs.map (·.total_error)).getD i 0 <
          (zs.map (·.total_error)).getD j 0) →
        2 ≤ (zs.filter
          (fun r => r.phase == (zs.getD i defaultVRow).phase)).length →
        crystal_from_vector_matching m2e zs =
          some ⟨(zs.getD i defaultVRow).phase,
            m2e (zs.getD i defaultVRow).R,
            ⟨(zs.getD i defaultVRow).match_rate,
             (zs.getD i defaultVRow).ehkls,
             (zs.getD i defaultVRow).total_error,
             100 * (1 - (zs.getD i defaultVRow).total_error /
               (sortAscQ ((zs.filter
                 (fun r => r.phase == (zs.getD i defaultVRow).phase)).map
                 (·.total_error))).getD 1 0),
             some (100 * (1 - (zs.getD i defaultVRow).total_error /
               (sortAscQ ((zs.filter
                 (fun r => r.phase != (zs.getD i defaultVRow).phase)).map
                 (·.total_error))).getD 0 0))⟩⟩) :=
  ⟨fun zs i h1 h2 h3 h4 h5 => template_multi_full zs i h1 h2 h3 h4 h5,
   fun m2e zs i h1 h2 h3 h4 h5 => vector_multi_full m2e zs i h1 h2 h3 h4 h5⟩

/-- C1 witness: the claim's concrete scenario for vector matching — winning
phase best total error 0.01, same-phase runner-up 0.02, best competing phase
0.05 — gives `orientation_reliability = 50` and `phase_reliability = 80`;
plus a concrete template-matching instance with correlations 0.9, 0.7 in the
winning phase and 0.5 in the competing phase. -/
theorem reducers_multi_phase_witness :
    (2 ≤ numUnique (([⟨0, ⟨1, 1, 1⟩, 9/10⟩, ⟨0, ⟨2, 2, 2⟩, 7/10⟩,
        ⟨1, ⟨3, 3, 3⟩, 1/2⟩] : List TRow).map (·.phase)) ∧
      crystal_from_template_matching
          [⟨0, ⟨1, 1, 1⟩, 9/10⟩, ⟨0, ⟨2, 2, 2⟩, 7/10⟩, ⟨1, ⟨3, 3, 3⟩, 1/2⟩] =
        some ⟨0, ⟨1, 1, 1⟩, ⟨9/10, 200/9, some (400/9)⟩⟩) ∧
      crystal_from_vector_matching (fun _ => v0)
          [⟨0, identityMat, 1, [], 1/100⟩, ⟨0, identityMat, 1, [], 1/50⟩,
           ⟨1, identityMat, 1, [], 1/20⟩] =
        some ⟨0, v0, ⟨1, [], 1/100, 50, some 80⟩⟩ := by
  refine ⟨⟨by with_unfolding_all decide, ?_⟩, ?_⟩
  · refine (reducers_multi_phase.1
      [⟨0, ⟨1, 1, 1⟩, 9/10⟩, ⟨0, ⟨2, 2, 2⟩, 7/10⟩, ⟨1, ⟨3, 3, 3⟩, 1/2⟩] 0
      (by with_unfolding_all decide) (by with_unfolding_all decide)
      ?_ (by omega) (by with_unfolding_all decide)).trans ?_
    · intro j hj
      simp only [List.length_cons, List.length_nil] at hj
      interval_cases j <;> with_unfolding_all decide
    · with_unfolding_all decide
  · refine (reducers_multi_phase.2 (fun _ => v0)
      [⟨0, identityMat, 1, [], 1/100⟩, ⟨0, identityMat, 1, [], 1/50⟩,
       ⟨1, identityMat, 1, [], 1/20⟩] 0
      (by with_unfolding_all decide) (by with_unfolding_all decide)
      ?_ (by omega) (by with_unfolding_all decide)).trans ?_
    · intro j hj
      simp only [List.length_cons, List.length_nil] at hj
      interval_cases j <;> with_unfolding_all decide
    · with_unfolding_all decide

/-! Helper lemmas for `choose_peak_ids`. -/

theorem disjoint_drop_take_of_nodup {α : Type} {l : List α} {a b : ℕ}
    (hnd : l.Nodup) (hab : a ≤ b) : (l.drop b).Disjoint (l.take a) := by
  intro x hxd hxt
  have hxt' : x ∈ l.take b := by
    have heq : l.take a = (l.take b).take a := by
      rw [List.take_take, min_eq_left hab]
    rw [heq] at hxt
    exact List.take_subset _ _ hxt
  have hnd' : (l.take b ++ l.drop b).Nodup := by
    rwa [List.take_append_drop]
  exact (List.nodup_append.mp hnd').2.2 hxt' hxd

theorem pairwise_take_drop {α : Type} {R : α → α → Prop} {l : List α} {m : ℕ}
    (h : List.Pairwise R l) :
    ∀ a ∈ l.take m, ∀ b ∈ l.drop m, R a b := by
  have h' : (l.take m ++ l.drop m).Pairwise R := by
    rwa [List.take_append_drop]
  exact (List.pairwise_append.mp h').2.2

/-- C6: the Peak Selector returns `min(N, k)` distinct indices, of which the
first `ceil(min(N, k) / 2)` point at vectors whose length (`vecNorm`, the
model of the row Euclidean norm) is at least that of every unchosen vector,
and the remaining indices point at vectors whose length is at most that of
every index outside that group; for `k ≥ N` it returns every index of
`0..N-1` exactly once.  Determinism is definitional: the model is a pure
function of its input. -/
theorem choosePeakIds_selects_extremes (vecNorm : Vec3 → ℚ)
    (peaks : List Vec3) (k : ℕ) (hk : 1 ≤ k) (hN : 1 ≤ peaks.length) :
    (choose_peak_ids vecNorm peaks k).length = min peaks.length k ∧
      (choose_peak_ids vecNorm peaks k).Nodup ∧
      (∀ i ∈ (choose_peak_ids vecNorm peaks k).take
          ((min peaks.length k + 1) / 2),
        ∀ j, j < peaks.length →
          j ∉ (choose_peak_ids vecNorm peaks k).take
            ((min peaks.length k + 1) / 2) →
          vecNorm (peaks.getD j v0) ≤ vecNorm (peaks.getD i v0)) ∧
      (∀ i ∈ (choose_peak_ids vecNorm peaks k).drop
          ((min peaks.length k + 1) / 2),
        ∀ j, j < peaks.length →
          j ∉ (choose_peak_ids vecNorm peaks k).drop
            ((min peaks.length k + 1) / 2) →
          vecNorm (peaks.getD i v0) ≤ vecNorm (peaks.getD j v0)) ∧
      (∀ i ∈ choose_peak_ids vecNorm peaks k, i < peaks.length) ∧
      (peaks.length ≤ k →
        (choose_peak_ids vecNorm peaks k).Perm
          (List.range peaks.length)) := by
  have hn : min peaks.length k ≤ peaks.length := Nat.min_le_left _ _
  have hnl : (min peaks.length k + 1) / 2 ≤ min peaks.length k := by omega
  have hslen : (argsortQ (peaks.map vecNorm)).length = peaks.length := by
    rw [argsortQ_length, List.length_map]
  have hids : choose_peak_ids vecNorm peaks k =
      (argsortQ (peaks.map vecNorm)).drop
        (peaks.length - (min peaks.length k + 1) / 2) ++
      (argsortQ (peaks.map vecNorm)).take
        (min peaks.length k - (min peaks.length k + 1) / 2) := rfl
  have hdlen : ((argsortQ (peaks.map vecNorm)).drop
      (peaks.length - (min peaks.length k + 1) / 2)).length =
      (min peaks.length k + 1) / 2 := by
    rw [List.length_drop, hslen]
    omega
  have htlen : ((argsortQ (peaks.map vecNorm)).take
      (min peaks.length k - (min peaks.length k + 1) / 2)).length =
      min peaks.length k - (min peaks.length k + 1) / 2 := by
    rw [List.length_take, hslen]
    omega
  have htake : (choose_peak_ids vecNorm peaks k).take
      ((min peaks.length k + 1) / 2) =
      (argsortQ (peaks.map vecNorm)).drop
        (peaks.length - (min peaks.length k + 1) / 2) := by
    rw [hids, List.take_left' hdlen]
  have hdrop : (choose_peak_ids vecNorm peaks k).drop
      ((min peaks.length k + 1) / 2) =
      (argsortQ (peaks.map vecNorm)).take
        (min peaks.length k - (min peaks.length k + 1) / 2) := by
    rw [hids, List.drop_left' hdlen]
  have hnorm : ∀ j, j < peaks.length →
      (peaks.map vecNorm).getD j 0 = vecNorm (peaks.getD j v0) := by
    intro j hj
    exact getD_map _ 0 v0 hj
  have hmem : ∀ i ∈ choose_peak_ids vecNorm peaks k, i < peaks.length := by
    intro i hi
    rw [hids] at hi
    rcases List.mem_append.mp hi with hi | hi
    · have := mem_argsortQ.mp (List.drop_subset _ _ hi)
      rwa [List.length_map] at this
    · have := mem_argsortQ.mp (List.take_subset _ _ hi)
      rwa [List.length_map] at this
  refine ⟨?_, ?_, ?_, ?_, hmem, ?_⟩
  · rw [hids, List.length_append, hdlen, htlen]
    omega
  · rw [hids]
    rw [List.nodup_append]
    refine ⟨(argsortQ_nodup _).sublist (List.drop_sublist _ _),
      (argsortQ_nodup _).sublist (List.take_sublist _ _), ?_⟩
    exact disjoint_drop_take_of_nodup (argsortQ_nodup _) (by omega)
  · intro i hi j hj hjnot
    rw [htake] at hi hjnot
    have hjmem : j ∈ argsortQ (peaks.map vecNorm) := by
      rw [mem_argsortQ, List.length_map]
      exact hj
    have hsplit : j ∈ (argsortQ (peaks.map vecNorm)).take
        (peaks.length - (min peaks.length k + 1) / 2) ++
        (argsortQ (peaks.map vecNorm)).drop
        (peaks.length - (min peaks.length k + 1) / 2) := by
      rw [List.take_append_drop]
      exact hjmem
    have hjtake : j ∈ (argsortQ (peaks.map vecNorm)).take
        (peaks.length - (min peaks.length k + 1) / 2) := by
      rcases List.mem_append.mp hsplit with h | h
      · exact h
      · exact absurd h hjnot
    have hlex := pairwise_take_drop (argsortQ_sorted (peaks.map vecNorm))
      j hjtake i hi
    have himem : i < peaks.length := by
      have := mem_argsortQ.mp (List.drop_subset _ _ hi)
      rwa [List.length_map] at this
    rcases hlex with h | ⟨h, _⟩
    · rw [← hnorm j hj, ← hnorm i himem]
      exact le_of_lt h
    · rw [← hnorm j hj, ← hnorm i himem]
      exact le_of_eq h
  · intro i hi j hj hjnot
    rw [hdrop] at hi hjnot
    have hjmem : j ∈ argsortQ (peaks.map vecNorm) := by
      rw [mem_argsortQ, List.length_map]
      exact hj
    have hsplit : j ∈ (argsortQ (peaks.map vecNorm)).take
        (min peaks.length k - (min peaks.length k + 1) / 2) ++
        (argsortQ (peaks.map vecNorm)).drop
        (min peaks.length k - (min peaks.length k + 1) / 2) := by
      rw [List.take_append_drop]
      exact hjmem
    have hjdrop : j ∈ (argsortQ (peaks.map vecNorm)).drop
        (min peaks.length k - (min peaks.length k + 1) / 2) := by
      rcases List.mem_append.mp hsplit with h | h
      · exact absurd h hjnot
      · exact h
    have hlex := pairwise_take_drop (argsortQ_sorted (peaks.map vecNorm))
      i hi j hjdrop
    have himem : i < peaks.length := by
      have := mem_argsortQ.mp (List.take_subset _ _ hi)
      rwa [List.length_map] at this
    rcases hlex with h | ⟨h, _⟩
    · rw [← hnorm j hj, ← hnorm i himem]
      exact le_of_lt h
    · rw [← hnorm j hj, ← hnorm i himem]
      exact le_of_eq h
  · intro hkN
    have hmin : min peaks.length k = peaks.length := min_eq_left hkN
    rw [hids, hmin]
    have hshort : peaks.length - (peaks.length + 1) / 2 =
        peaks.length - (peaks.length + 1) / 2 := rfl
    refine ((List.perm_append_comm).trans ?_)
    have harr : (argsortQ (peaks.map vecNorm)).take
          (peaks.length - (peaks.length + 1) / 2) ++
        (argsortQ (peaks.map vecNorm)).drop
          (peaks.length - (peaks.length + 1) / 2) =
        argsortQ (peaks.map vecNorm) := List.take_append_drop _ _
    rw [harr]
    have := argsortQ_perm_range (peaks.map vecNorm)
    rwa [List.length_map] at this

/-- C6 witness: concrete peaks with lengths 1, 5, 3.  For `k = 2` the
selector returns index 1 (the longest) then index 0 (the shortest); for
`k = 5 ≥ N = 3` it returns every index exactly once. -/
theorem choosePeakIds_witness :
    (1 ≤ 2 ∧ 1 ≤ ([⟨1, 0, 0⟩, ⟨5, 0, 0⟩, ⟨3, 0, 0⟩] : List Vec3).length) ∧
      choose_peak_ids (fun v => v.x)
        [⟨1, 0, 0⟩, ⟨5, 0, 0⟩, ⟨3, 0, 0⟩] 2 = [1, 0] ∧
      (choose_peak_ids (fun v => v.x)
        [⟨1, 0, 0⟩, ⟨5, 0, 0⟩, ⟨3, 0, 0⟩] 5).Perm (List.range 3) := by
  refine ⟨⟨by omega, by decide⟩, by with_unfolding_all decide, ?_⟩
  have h := (choosePeakIds_selects_extremes (fun v => v.x)
    [⟨1, 0, 0⟩, ⟨5, 0, 0⟩, ⟨3, 0, 0⟩] 5 (by omega) (by decide)).2.2.2.2.2
    (by decide)
  simpa using h

/-! Helper lemmas for the `match_vectors` output shape. -/

theorem phaseBlock_length (phase_index n_best : ℕ)
    (solutions : List Solution) :
    (phaseBlock phase_index n_best solutions).length = n_best := by
  simp only [phaseBlock]
  by_cases h : 0 < min n_best solutions.length
  · rw [if_pos h, List.length_append, List.length_map, List.length_replicate,
      sort_solutions_length]
    omega
  · rw [if_neg h, List.nil_append, List.length_replicate]
    omega

theorem phaseBlock_eq (phase_index n_best : ℕ) (solutions : List Solution) :
    phaseBlock phase_index n_best solutions =
      (sort_solutions solutions (min n_best solutions.length)).map
        (fun s => ⟨phase_index, s.R, s.match_rate, s.ehkls, s.error_mean⟩) ++
      List.replicate (n_best - min n_best solutions.length) sentinelRow := by
  simp only [phaseBlock]
  by_cases h : 0 < min n_best solutions.length
  · rw [if_pos h]
  · rw [if_neg h]
    have hnil : sort_solutions solutions (min n_best solutions.length) = [] := by
      apply List.eq_nil_of_length_eq_zero
      rw [sort_solutions_length]
      omega
    rw [hnil, List.map_nil, List.nil_append]

/-- C2 (amended): `match_vectors` always returns exactly
`len(library) * n_best` indexation rows; for each phase `k`, the `k`-th
block of `n_best` rows holds the ranked real solutions of that phase
(carrying phase index `k` in the phase column) followed, exactly when fewer
than `n_best` real solutions exist, by copies of the dummy row
`[0, identity, 0, [], 1.0]` in the remaining slots — whose phase entry is
the literal `0`, not the phase index (see the counterexample). -/
theorem matchVectors_shape_and_sentinel (g : Geom) (peaks : List Vec3)
    (library : List VLibEntry) (mag_tol angle_tol index_error_tol : ℚ)
    (n_peaks_to_index n_best : ℕ) :
    ∃ res, match_vectors g (.arr peaks) library mag_tol angle_tol
        index_error_tol n_peaks_to_index n_best = some res ∧
      res.top_matches.length = library.length * n_best ∧
      ∀ k, k < library.length →
        (res.top_matches.drop (k * n_best)).take n_best =
          (sort_solutions
              (phaseSolutions g peaks (library.getD k defaultVLibEntry)
                mag_tol angle_tol index_error_tol n_peaks_to_index)
              (min n_best (phaseSolutions g peaks
                (library.getD k defaultVLibEntry) mag_tol angle_tol
                index_error_tol n_peaks_to_index).length)).map
            (fun s => ⟨k, s.R, s.match_rate, s.ehkls, s.error_mean⟩) ++
          List.replicate (n_best - min n_best (phaseSolutions g peaks
            (library.getD k defaultVLibEntry) mag_tol angle_tol
            index_error_tol n_peaks_to_index).length) sentinelRow := by
  refine ⟨_, rfl, ?_, ?_⟩
  · simp only [match_vectors, unwrapPeaks]
    apply (length_flatten_const ?_).trans
    · rw [List.length_map, List.enum_length]
    · intro b hb
      obtain ⟨pe, _, hpe⟩ := List.mem_map.mp hb
      rw [← hpe, phaseBlock_length]
  · intro k hk
    simp only [match_vectors, unwrapPeaks]
    rw [flatten_drop_take ?hlen k]
    case hlen =>
      intro b hb
      obtain ⟨pe, _, hpe⟩ := List.mem_map.mp hb
      rw [← hpe, phaseBlock_length]
    have hk1 : k < (library.enum.map (fun pe =>
        phaseBlock pe.1 n_best
          (phaseSolutions g peaks pe.2 mag_tol angle_tol index_error_tol
            n_peaks_to_index))).length := by
      rw [List.length_map, List.enum_length]
      exact hk
    have hk2 : k < library.enum.length := by rwa [List.enum_length]
    have hk3 : k < library.length := hk
    rw [List.getD_eq_getElem _ _ hk1, List.getElem_map, List.getElem_enum,
      List.take_of_length_le (le_of_eq (phaseBlock_length _ _ _)),
      phaseBlock_eq]
    rw [List.getD_eq_getElem _ _ hk3]

/-- C2 counterexample: two phases with empty catalogs and `n_best = 1`.
Phase 1 has no solutions, so its single output slot holds the dummy row —
whose first entry is `0`, not the phase index `1` the claim requires. -/
theorem matchVectors_sentinel_counterexample :
    (match_vectors gFix (.arr peaksFix) [entEmpty, entEmpty] 1 1 1 3 1).map
        (fun res => (res.top_matches.getD 1 sentinelRow)) =
      some ⟨0, identityMat, 0, [], 1⟩ ∧
      (0 : ℕ) ≠ 1 := by
  refine ⟨?_, by decide⟩
  with_unfolding_all decide

/-- C2 witness: the shape theorem applied at the counterexample input: the
result has `2 * 1` rows and phase 1's block is exactly one dummy row. -/
theorem matchVectors_shape_witness :
    (1 : ℕ) < 2 ∧
      (match_vectors gFix (.arr peaksFix) [entEmpty, entEmpty] 1 1 1 3 1).map
          (fun res => res.top_matches.length) = some (2 * 1) ∧
      (match_vectors gFix (.arr peaksFix) [entEmpty, entEmpty] 1 1 1 3 1).map
          (fun res => (res.top_matches.drop (1 * 1)).take 1) =
        some [sentinelRow] := by
  obtain ⟨res, h1, h2, h3⟩ := matchVectors_shape_and_sentinel gFix peaksFix
    [entEmpty, entEmpty] 1 1 1 3 1
  refine ⟨by omega, ?_, ?_⟩
  · rw [h1, Option.map_some']
    simpa using h2
  · rw [h1, Option.map_some', h3 1 (by simp)]
    with_unfolding_all decide

/-! Helper lemmas for candidate retention. -/

theorem ehklsOf_length (frac : Vec3 → Vec3) (peaks : List Vec3) (R : Mat3) :
    (ehklsOf frac peaks R).length = peaks.length := by
  simp [ehklsOf, hklsOf]

theorem candidateSolution_eq_some_iff {frac : Vec3 → Vec3}
    {peaks : List Vec3} {tol : ℚ} {c : ℕ × Mat3} {s : Solution} :
    candidateSolution frac peaks tol c = some s ↔
      2 < ((ehklsOf frac peaks c.2).filter
        (fun e => decide (maxComp e < tol))).length ∧
      s = ⟨c.2,
        if peaks.length = 0 then 0
        else ((((ehklsOf frac peaks c.2).filter
          (fun e => decide (maxComp e < tol))).length : ℚ) /
          (peaks.length : ℚ)),
        ehklsOf frac peaks c.2,
        (((ehklsOf frac peaks c.2).filter
          (fun e => decide (maxComp e < tol))).map sumComp).sum /
          (3 * (((ehklsOf frac peaks c.2).filter
            (fun e => decide (maxComp e < tol))).length : ℚ)),
        c.1⟩ := by
  simp only [candidateSolution]
  by_cases h : 2 < ((ehklsOf frac peaks c.2).filter
      (fun e => decide (maxComp e < tol))).length
  · rw [if_pos h]
    constructor
    · intro hs
      exact ⟨h, (Option.some_inj.mp hs).symm⟩
    · rintro ⟨-, rfl⟩
      rfl
  · rw [if_neg h]
    constructor
    · intro hs
      cases hs
    · rintro ⟨hc, -⟩
      exact absurd hc h

/-- C4: a candidate rotation derived from a catalog row is retained as a
solution exactly when strictly more than 2 of the experimental vectors have
all components of their indexation error below the index-error tolerance;
every retained solution stores the full error array, a match rate equal to
the satisfying count over the total experimental vector count, and a mean
error equal to the average of the error entries of the satisfying vectors
only. -/
theorem vectorMatcher_retention (g : Geom) (peaks : List Vec3)
    (entry : VLibEntry) (mag_tol angle_tol index_error_tol : ℚ)
    (n_peaks_to_index : ℕ) :
    (∀ s ∈ phaseSolutions g peaks entry mag_tol angle_tol index_error_tol
        n_peaks_to_index,
      2 < ((ehklsOf entry.lattice_recip.fractional peaks s.R).filter
        (fun e => decide (maxComp e < index_error_tol))).length ∧
      s.match_rate = ((((ehklsOf entry.lattice_recip.fractional peaks
          s.R).filter (fun e => decide (maxComp e < index_error_tol))).length
          : ℚ) / (peaks.length : ℚ)) ∧
      s.ehkls = ehklsOf entry.lattice_recip.fractional peaks s.R ∧
      s.error_mean = (((ehklsOf entry.lattice_recip.fractional peaks
          s.R).filter (fun e => decide (maxComp e < index_error_tol))).map
          sumComp).sum /
        (3 * (((ehklsOf entry.lattice_recip.fractional peaks s.R).filter
          (fun e => decide (maxComp e < index_error_tol))).length : ℚ))) ∧
      (∀ c ∈ phaseCandidates g peaks entry mag_tol angle_tol
          n_peaks_to_index,
        2 < ((ehklsOf entry.lattice_recip.fractional peaks c.2).filter
          (fun e => decide (maxComp e < index_error_tol))).length →
        ∃ s ∈ phaseSolutions g peaks entry mag_tol angle_tol index_error_tol
            n_peaks_to_index,
          s.R = c.2 ∧ s.vector_pair_index = c.1) := by
  constructor
  · intro s hs
    obtain ⟨c, hc, hcs⟩ := List.mem_filterMap.mp hs
    obtain ⟨hcount, rfl⟩ := candidateSolution_eq_some_iff.mp hcs
    have hlen : ((ehklsOf entry.lattice_recip.fractional peaks c.2).filter
        (fun e => decide (maxComp e < index_error_tol))).length ≤
        peaks.length := by
      calc ((ehklsOf entry.lattice_recip.fractional peaks c.2).filter
          (fun e => decide (maxComp e < index_error_tol))).length
          ≤ (ehklsOf entry.lattice_recip.fractional peaks c.2).length :=
            List.length_filter_le _ _
        _ = peaks.length := ehklsOf_length _ _ _
    have hne : peaks.length ≠ 0 := by omega
    refine ⟨hcount, ?_, rfl, rfl⟩
    simp only [if_neg hne]
  · intro c hc hcount
    refine ⟨_, List.mem_filterMap.mpr ⟨c, hc,
      candidateSolution_eq_some_iff.mpr ⟨hcount, rfl⟩⟩, rfl, rfl⟩

/-- C4 witness: with the identity lattice conversions and identity rotation,
the integer peaks `peaksInt` are all indexed exactly, so the solution
`solFix` is retained with match rate `3/3 = 1` and mean error 0. -/
theorem vectorMatcher_retention_witness :
    solFix ∈ phaseSolutions gZero peaksInt entOne 1 1 (1/10) 3 ∧
      (2 < ((ehklsOf entOne.lattice_recip.fractional peaksInt
          solFix.R).filter
          (fun e => decide (maxComp e < (1/10)))).length ∧
        solFix.match_rate = ((((ehklsOf entOne.lattice_recip.fractional
            peaksInt solFix.R).filter
            (fun e => decide (maxComp e < (1/10)))).length : ℚ) /
            (peaksInt.length : ℚ)) ∧
        solFix.ehkls = ehklsOf entOne.lattice_recip.fractional peaksInt
          solFix.R ∧
        solFix.error_mean = (((ehklsOf entOne.lattice_recip.fractional
            peaksInt solFix.R).filter
            (fun e => decide (maxComp e < (1/10)))).map sumComp).sum /
          (3 * (((ehklsOf entOne.lattice_recip.fractional peaksInt
            solFix.R).filter
            (fun e => decide (maxComp e < (1/10)))).length : ℚ))) := by
  have hmem : solFix ∈ phaseSolutions gZero peaksInt entOne 1 1 (1/10) 3 := by
    with_unfolding_all decide
  exact ⟨hmem,
    (vectorMatcher_retention gZero peaksInt entOne 1 1 (1/10) 3).1
      solFix hmem⟩

/-! Helper lemmas for `correlate_library`. -/

theorem phaseTemplateBlock_length {image : List (List ℚ)}
    {e : TemplateEntry} {n_largest : ℕ} (phase_index : ℕ)
    (h : n_largest ≤ (corrGrid image e).flatten.length) :
    (phaseTemplateBlock image e phase_index n_largest).length = n_largest := by
  simp only [phaseTemplateBlock]
  rw [List.length_map, List.length_map, List.length_reverse, argsortQ_length,
    List.length_map, List.length_drop, argsortQ_length]
  omega

theorem phaseTemplateBlock_phase {image : List (List ℚ)} {e : TemplateEntry}
    {phase_index n_largest : ℕ} :
    ∀ r ∈ phaseTemplateBlock image e phase_index n_largest,
      r.phase = phase_index := by
  intro r hr
  simp only [phaseTemplateBlock] at hr
  obtain ⟨fi, _, hfi⟩ := List.mem_map.mp hr
  rw [← hfi]

theorem phaseTemplateBlock_sorted (image : List (List ℚ))
    (e : TemplateEntry) (phase_index n_largest : ℕ) :
    List.Sorted (fun a b => b.correlation ≤ a.correlation)
      (phaseTemplateBlock image e phase_index n_largest) := by
  simp only [phaseTemplateBlock]
  show List.Pairwise _ _
  rw [List.pairwise_map, List.pairwise_map]
  have hbase : List.Pairwise
      (fun a b => lexLe ((((argsortQ ((corrGrid image e).flatten)).drop
          ((corrGrid image e).flatten.length - n_largest)).map
          (fun i => (corrGrid image e).flatten.getD i 0))) b a)
      ((argsortQ (((argsortQ ((corrGrid image e).flatten)).drop
          ((corrGrid image e).flatten.length - n_largest)).map
          (fun i => (corrGrid image e).flatten.getD i 0))).reverse) :=
    List.pairwise_reverse.mpr (argsortQ_sorted _)
  refine hbase.imp_of_mem ?_
  intro a b ha hb hab
  have ha' := mem_argsortQ.mp (List.mem_reverse.mp ha)
  have hb' := mem_argsortQ.mp (List.mem_reverse.mp hb)
  rw [List.length_map] at ha' hb'
  have hval : ∀ x, x < ((argsortQ ((corrGrid image e).flatten)).drop
      ((corrGrid image e).flatten.length - n_largest)).length →
      ((((argsortQ ((corrGrid image e).flatten)).drop
        ((corrGrid image e).flatten.length - n_largest)).map
        (fun i => (corrGrid image e).flatten.getD i 0))).getD x 0 =
      (corrGrid image e).flatten.getD
        (((argsortQ ((corrGrid image e).flatten)).drop
          ((corrGrid image e).flatten.length - n_largest)).getD x 0) 0 := by
    intro x hx
    exact getD_map _ 0 0 hx
  rcases hab with h | ⟨h, _⟩
  · rw [hval b hb', hval a ha'] at h
    exact le_of_lt h
  · rw [hval b hb', hval a ha'] at h
    exact le_of_eq h

/-- C7: with the index flag set, `correlate_library` returns exactly
`len(library) * n_largest` rows; the `k`-th block of `n_largest` rows is
phase `k`'s block (phase blocks follow the library order and carry phase
index `k`), with correlations non-increasing within each block.  The
hypotheses delimit the domain in which the source itself does not raise:
`1 ≤ n_largest ≤` grid size for every phase. -/
theorem correlateLibrary_shape_and_order (image : List (List ℚ))
    (library : List TemplateEntry) (n_largest : ℕ) (hn : 1 ≤ n_largest)
    (hsize : ∀ e ∈ library,
      n_largest ≤ (corrGrid image e).flatten.length) :
    (correlate_library image library n_largest true).length =
        library.length * n_largest ∧
      ∀ k, k < library.length →
        ((correlate_library image library n_largest true).drop
            (k * n_largest)).take n_largest =
          (phaseTemplateBlock image (library.getD k defaultTemplateEntry) k
            n_largest).map some ∧
        (∀ r ∈ phaseTemplateBlock image
            (library.getD k defaultTemplateEntry) k n_largest,
          r.phase = k) ∧
        List.Sorted (fun a b => b.correlation ≤ a.correlation)
          (phaseTemplateBlock image (library.getD k defaultTemplateEntry) k
            n_largest) := by
  have hblocks : ∀ b ∈ library.enum.map (fun pe =>
      (phaseTemplateBlock image pe.2 pe.1 n_largest).map some),
      b.length = n_largest := by
    intro b hb
    obtain ⟨pe, hpe, hpeb⟩ := List.mem_map.mp hb
    rw [← hpeb, List.length_map]
    exact phaseTemplateBlock_length pe.1
      (hsize pe.2 (List.snd_mem_of_mem_enum hpe))
  constructor
  · simp only [correlate_library, if_pos]
    rw [length_flatten_const hblocks, List.length_map, List.enum_length]
  · intro k hk
    refine ⟨?_, phaseTemplateBlock_phase, phaseTemplateBlock_sorted _ _ _ _⟩
    simp only [correlate_library, if_pos]
    rw [flatten_drop_take hblocks k]
    have hk1 : k < (library.enum.map (fun pe =>
        (phaseTemplateBlock image pe.2 pe.1 n_largest).map some)).length := by
      rw [List.length_map, List.enum_length]
      exact hk
    rw [List.getD_eq_getElem _ _ hk1, List.getElem_map, List.getElem_enum,
      List.getD_eq_getElem _ _ hk]
    apply List.take_of_length_le
    rw [List.length_map]
    exact le_of_eq (phaseTemplateBlock_length k
      (hsize _ (List.getElem_mem hk)))

/-- C7 witness: one phase whose grid is 1 x 2 with correlations 8 and 15;
with `n_largest = 2` the output has `1 * 2` rows, sorted descending
(15 then 8), phase index 0, matching the phase block. -/
theorem correlateLibrary_witness :
    (1 ≤ 2 ∧ ∀ e ∈ [tEFix], 2 ≤ (corrGrid imageFix e).flatten.length) ∧
      (correlate_library imageFix [tEFix] 2 true).length = 1 * 2 ∧
      ((correlate_library imageFix [tEFix] 2 true).drop (0 * 2)).take 2 =
        (phaseTemplateBlock imageFix ([tEFix].getD 0 defaultTemplateEntry) 0
          2).map some := by
  have h := correlateLibrary_shape_and_order imageFix [tEFix] 2 (by omega)
    (by with_unfolding_all decide)
  exact ⟨⟨by omega, by with_unfolding_all decide⟩, h.1, (h.2 0 (by simp)).1⟩

/-! Helper lemmas for the phase-invariance claim. -/

theorem npArgmaxQ_append {xs ys : List ℚ} {i : ℕ}
    (hi : npArgmaxQ xs = some i)
    (hworse : ∀ y ∈ ys, y < xs.getD i 0) :
    npArgmaxQ (xs ++ ys) = some i := by
  obtain ⟨hlen, hmax, hfirst⟩ := npArgmaxQ_spec hi
  apply npArgmaxQ_eq_of_firstmax
  · rw [List.length_append]
    omega
  · intro j hj
    rw [List.length_append] at hj
    rw [List.getD_append _ _ _ _ hlen]
    by_cases hjx : j < xs.length
    · rw [List.getD_append _ _ _ _ hjx]
      exact hmax j hjx
    · push_neg at hjx
      rw [List.getD_append_right _ _ _ _ hjx]
      have hmem : ys.getD (j - xs.length) 0 ∈ ys :=
        getD_mem_of_lt 0 (by omega)
      exact le_of_lt (hworse _ hmem)
  · intro j hj
    rw [List.getD_append _ _ _ _ hlen, List.getD_append _ _ _ _ (by omega)]
    exact hfirst j hj

theorem npArgminQ_append {xs ys : List ℚ} {i : ℕ}
    (hi : npArgminQ xs = some i)
    (hworse : ∀ y ∈ ys, xs.getD i 0 < y) :
    npArgminQ (xs ++ ys) = some i := by
  obtain ⟨hlen, hmin, hfirst⟩ := npArgminQ_spec hi
  apply npArgminQ_eq_of_firstmin
  · rw [List.length_append]
    omega
  · intro j hj
    rw [List.length_append] at hj
    rw [List.getD_append _ _ _ _ hlen]
    by_cases hjx : j < xs.length
    · rw [List.getD_append _ _ _ _ hjx]
      exact hmin j hjx
    · push_neg at hjx
      rw [List.getD_append_right _ _ _ _ hjx]
      have hmem : ys.getD (j - xs.length) 0 ∈ ys :=
        getD_mem_of_lt 0 (by omega)
      exact le_of_lt (hworse _ hmem)
  · intro j hj
    rw [List.getD_append _ _ _ _ hlen, List.getD_append _ _ _ _ (by omega)]
    exact hfirst j hj

theorem numUnique_le_append (l₁ l₂ : List ℕ) :
    numUnique l₁ ≤ numUnique (l₁ ++ l₂) := by
  rw [numUnique, numUnique, ← List.card_toFinset, ← List.card_toFinset]
  apply Finset.card_le_card
  intro x hx
  rw [List.mem_toFinset] at hx ⊢
  exact List.mem_append_left _ hx

theorem npPartitionNegTwo_of_sorted_ge {l : List ℚ} (h2 : 2 ≤ l.length)
    (hs : List.Sorted (fun a b : ℚ => b ≤ a) l) :
    npPartitionNegTwo l = some (l.getD 1 0) := by
  rw [npPartitionNegTwo_eq_sortDesc h2, sortDescQ_eq_self_of_sorted_ge hs]

theorem npPartitionOne_of_sorted_le {l : List ℚ} (h2 : 2 ≤ l.length)
    (hs : List.Sorted (fun a b : ℚ => a ≤ b) l) :
    npPartitionOne l = some (l.getD 1 0) := by
  rw [npPartitionOne_eq_sortAsc h2, sortAscQ_eq_self_of_sorted hs]

theorem template_single_append (zs ys : List TRow) (p q : ℕ)
    (hlen : 2 ≤ zs.length)
    (hall : ∀ r ∈ zs, r.phase = p)
    (hsort : List.Sorted (fun a b : ℚ => b ≤ a) (zs.map (·.correlation)))
    (hys : ys ≠ [])
    (hallq : ∀ r ∈ ys, r.phase = q)
    (hqp : q ≠ p)
    (hworse : ∀ r ∈ ys,
      r.correlation < (zs.getD 0 defaultTRow).correlation) :
    ∃ r r', crystal_from_template_matching zs = some r ∧
      crystal_from_template_matching (zs ++ ys) = some r' ∧
      r'.phase = r.phase ∧ r'.orientation = r.orientation ∧
      r'.metrics.correlation = r.metrics.correlation ∧
      r'.metrics.orientation_reliability =
        r.metrics.orientation_reliability := by
  have h0 : 0 < zs.length := by omega
  have h1 : 1 < zs.length := by omega
  have hz0 : zs[0]? = some (zs.getD 0 defaultTRow) := by
    rw [List.getD_eq_getElem _ _ h0, List.getElem?_eq_getElem h0]
  have hz1 : zs[1]? = some (zs.getD 1 defaultTRow) := by
    rw [List.getD_eq_getElem _ _ h1, List.getElem?_eq_getElem h1]
  have hu1 : numUnique (zs.map (·.phase)) = 1 := by
    apply numUnique_eq_one
    · intro hnil
      rw [List.map_eq_nil_iff] at hnil
      subst hnil
      simp at hlen
    · intro x hx
      obtain ⟨r, hr, hrx⟩ := List.mem_map.mp hx
      rw [← hrx]
      exact hall r hr
  have hold := template_single_eval hu1 hz0 hz1
  have hz0phase : (zs.getD 0 defaultTRow).phase = p :=
    hall _ (getD_mem_of_lt defaultTRow h0)
  obtain ⟨y0, hy0⟩ := List.exists_mem_of_ne_nil ys hys
  have hu2 : numUnique ((zs ++ ys).map (·.phase)) ≠ 1 := by
    apply numUnique_ne_one_of_mem_ne
      (a := (zs.getD 0 defaultTRow).phase) (b := y0.phase)
    · exact List.mem_map.mpr ⟨zs.getD 0 defaultTRow,
        List.mem_append_left _ (getD_mem_of_lt defaultTRow h0), rfl⟩
    · exact List.mem_map.mpr ⟨y0, List.mem_append_right _ hy0, rfl⟩
    · rw [hz0phase, hallq y0 hy0]
      exact fun hc => hqp hc.symm
  have hargzs : npArgmaxQ (zs.map (·.correlation)) = some 0 := by
    apply npArgmaxQ_eq_of_firstmax
    · simpa using h0
    · intro j hj
      rw [List.length_map] at hj
      exact le_head_of_sorted_ge 0 hsort
        (getD_mem_of_lt 0 (by simpa using hj))
    · intro j hj
      exact absurd hj (Nat.not_lt_zero j)
  have harg2 : npArgmaxQ ((zs ++ ys).map (·.correlation)) = some 0 := by
    rw [List.map_append]
    apply npArgmaxQ_append hargzs
    intro y hy
    obtain ⟨r, hr, hry⟩ := List.mem_map.mp hy
    rw [← hry, getD_map _ 0 defaultTRow h0]
    exact hworse r hr
  have hbest2 : (zs ++ ys)[0]? = some (zs.getD 0 defaultTRow) := by
    rw [List.getElem?_append_left h0]
    exact hz0
  have hWfilter : (zs ++ ys).filter
      (fun r => r.phase == (zs.getD 0 defaultTRow).phase) = zs := by
    rw [List.filter_append]
    have hza : zs.filter
        (fun r => r.phase == (zs.getD 0 defaultTRow).phase) = zs :=
      List.filter_eq_self.mpr (fun a ha => by
        rw [beq_iff_eq, hall a ha, hz0phase])
    have hyb : ys.filter
        (fun r => r.phase == (zs.getD 0 defaultTRow).phase) = [] :=
      List.filter_eq_nil_iff.mpr (fun a ha => by
        rw [beq_iff_eq, hallq a ha, hz0phase]
        exact hqp)
    rw [hza, hyb, List.append_nil]
  have hso2 : npPartitionNegTwo (((zs ++ ys).filter
      (fun r => r.phase == (zs.getD 0 defaultTRow).phase)).map
      (·.correlation)) = some ((zs.map (·.correlation)).getD 1 0) := by
    rw [hWfilter]
    exact npPartitionNegTwo_of_sorted_ge (by simpa using hlen) hsort
  have hCfilter : (zs ++ ys).filter
      (fun r => r.phase != (zs.getD 0 defaultTRow).phase) = ys := by
    rw [List.filter_append]
    have hza : zs.filter
        (fun r => r.phase != (zs.getD 0 defaultTRow).phase) = [] :=
      List.filter_eq_nil_iff.mpr (fun a ha => by
        rw [bne_iff_ne, ne_eq, not_not, hall a ha, hz0phase])
    have hyb : ys.filter
        (fun r => r.phase != (zs.getD 0 defaultTRow).phase) = ys :=
      List.filter_eq_self.mpr (fun a ha => by
        rw [bne_iff_ne, ne_eq, hallq a ha, hz0phase]
        exact hqp)
    rw [hza, hyb, List.nil_append]
  obtain ⟨sp, hsp'⟩ : ∃ sp, npMaxQ (ys.map (·.correlation)) = some sp := by
    cases hmy : ys.map (·.correlation) with
    | nil =>
      rw [List.map_eq_nil_iff] at hmy
      exact absurd hmy hys
    | cons a t => exact npMaxQ_cons a t
  have hsp2 : npMaxQ (((zs ++ ys).filter
      (fun r => r.phase != (zs.getD 0 defaultTRow).phase)).map
      (·.correlation)) = some sp := by
    rw [hCfilter]
    exact hsp'
  have hnew := template_multi_eval hu2 harg2 hbest2 hso2 hsp2
  refine ⟨_, _, hold, hnew, rfl, rfl, rfl, ?_⟩
  rw [getD_map _ 0 defaultTRow h1]

theorem vector_single_append (m2e : Mat3 → Vec3) (zs ys : List VRow)
    (p q : ℕ) (hlen : 2 ≤ zs.length)
    (hall : ∀ r ∈ zs, r.phase = p)
    (hsort : List.Sorted (fun a b : ℚ => a ≤ b) (zs.map (·.total_error)))
    (hys : ys ≠ [])
    (hallq : ∀ r ∈ ys, r.phase = q)
    (hqp : q ≠ p)
    (hworse : ∀ r ∈ ys,
      (zs.getD 0 defaultVRow).total_error < r.total_error) :
    ∃ r r', crystal_from_vector_matching m2e zs = some r ∧
      crystal_from_vector_matching m2e (zs ++ ys) = some r' ∧
      r'.phase = r.phase ∧ r'.orientation = r.orientation ∧
      r'.metrics.match_rate = r.metrics.match_rate ∧
      r'.metrics.total_error = r.metrics.total_error ∧
      r'.metrics.orientation_reliability =
        r.metrics.orientation_reliability := by
  have h0 : 0 < zs.length := by omega
  have h1 : 1 < zs.length := by omega
  have hz0 : zs[0]? = some (zs.getD 0 defaultVRow) := by
    rw [List.getD_eq_getElem _ _ h0, List.getElem?_eq_getElem h0]
  have hz1 : zs[1]? = some (zs.getD 1 defaultVRow) := by
    rw [List.getD_eq_getElem _ _ h1, List.getElem?_eq_getElem h1]
  have hu1 : numUnique (zs.map (·.phase)) = 1 := by
    apply numUnique_eq_one
    · intro hnil
      rw [List.map_eq_nil_iff] at hnil
      subst hnil
      simp at hlen
    · intro x hx
      obtain ⟨r, hr, hrx⟩ := List.mem_map.mp hx
      rw [← hrx]
      exact hall r hr
  have hold := vector_single_eval m2e hu1 hz0 hz1
  have hz0phase : (zs.getD 0 defaultVRow).phase = p :=
    hall _ (getD_mem_of_lt defaultVRow h0)
  obtain ⟨y0, hy0⟩ := List.exists_mem_of_ne_nil ys hys
  have hu2 : numUnique ((zs ++ ys).map (·.phase)) ≠ 1 := by
    apply numUnique_ne_one_of_mem_ne
      (a := (zs.getD 0 defaultVRow).phase) (b := y0.phase)
    · exact List.mem_map.mpr ⟨zs.getD 0 defaultVRow,
        List.mem_append_left _ (getD_mem_of_lt defaultVRow h0), rfl⟩
    · exact List.mem_map.mpr ⟨y0, List.mem_append_right _ hy0, rfl⟩
    · rw [hz0phase, hallq y0 hy0]
      exact fun hc => hqp hc.symm
  have hargzs : npArgminQ (zs.map (·.total_error)) = some 0 := by
    apply npArgminQ_eq_of_firstmin
    · simpa using h0
    · intro j hj
      rw [List.length_map] at hj
      exact head_le_of_sorted_le 0 hsort
        (getD_mem_of_lt 0 (by simpa using hj))
    · intro j hj
      exact absurd hj (Nat.not_lt_zero j)
  have harg2 : npArgminQ ((zs ++ ys).map (·.total_error)) = some 0 := by
    rw [List.map_append]
    apply npArgminQ_append hargzs
    intro y hy
    obtain ⟨r, hr, hry⟩ := List.mem_map.mp hy
    rw [← hry, getD_map _ 0 defaultVRow h0]
    exact hworse r hr
  have hbest2 : (zs ++ ys)[0]? = some (zs.getD 0 defaultVRow) := by
    rw [List.getElem?_append_left h0]
    exact hz0
  have hWfilter : (zs ++ ys).filter
      (fun r => r.phase == (zs.getD 0 defaultVRow).phase) = zs := by
    rw [List.filter_append]
    have hza : zs.filter
        (fun r => r.phase == (zs.getD 0 defaultVRow).phase) = zs :=
      List.filter_eq_self.mpr (fun a ha => by
        rw [beq_iff_eq, hall a ha, hz0phase])
    have hyb : ys.filter
        (fun r => r.phase == (zs.getD 0 defaultVRow).phase) = [] :=
      List.filter_eq_nil_iff.mpr (fun a ha => by
        rw [beq_iff_eq, hallq a ha, hz0phase]
        exact hqp)
    rw [hza, hyb, List.append_nil]
  have hso2 : npPartitionOne (((zs ++ ys).filter
      (fun r => r.phase == (zs.getD 0 defaultVRow).phase)).map
      (·.total_error)) = some ((zs.map (·.total_error)).getD 1 0) := by
    rw [hWfilter]
    exact npPartitionOne_of_sorted_le (by simpa using hlen) hsort
  have hCfilter : (zs ++ ys).filter
      (fun r => r.phase != (zs.getD 0 defaultVRow).phase) = ys := by
    rw [List.filter_append]
    have hza : zs.filter
        (fun r => r.phase != (zs.getD 0 defaultVRow).phase) = [] :=
      List.filter_eq_nil_iff.mpr (fun a ha => by
        rw [bne_iff_ne, ne_eq, not_not, hall a ha, hz0phase])
    have hyb : ys.filter
        (fun r => r.phase != (zs.getD 0 defaultVRow).phase) = ys :=
      List.filter_eq_self.mpr (fun a ha => by
        rw [bne_iff_ne, ne_eq, hallq a ha, hz0phase]
        exact hqp)
    rw [hza, hyb, List.nil_append]
  obtain ⟨sp, hsp'⟩ : ∃ sp, npMinQ (ys.map (·.total_error)) = some sp := by
    cases hmy : ys.map (·.total_error) with
    | nil =>
      rw [List.map_eq_nil_iff] at hmy
      exact absurd hmy hys
    | cons a t => exact npMinQ_cons a t
  have hsp2 : npMinQ (((zs ++ ys).filter
      (fun r => r.phase != (zs.getD 0 defaultVRow).phase)).map
      (·.total_error)) = some sp := by
    rw [hCfilter]
    exact hsp'
  have hnew := vector_multi_eval m2e hu2 harg2 hbest2 hso2 hsp2
  refine ⟨_, _, hold, hnew, rfl, rfl, rfl, rfl, ?_⟩
  rw [getD_map _ 0 defaultVRow h1]

theorem template_multi_append (zs ys : List TRow) (i q : ℕ)
    (hu : 2 ≤ numUnique (zs.map (·.phase)))
    (hi : i < zs.length)
    (hmax : ∀ j, j < zs.length → (zs.map (·.correlation)).getD j 0 ≤
      (zs.map (·.correlation)).getD i 0)
    (hfirst : ∀ j, j < i → (zs.map (·.correlation)).getD j 0 <
      (zs.map (·.correlation)).getD i 0)
    (hwin : 2 ≤ (zs.filter
      (fun r => r.phase == (zs.getD i defaultTRow).phase)).length)
    (hallq : ∀ r ∈ ys, r.phase = q)
    (hqp : q ≠ (zs.getD i defaultTRow).phase)
    (hworse : ∀ r ∈ ys,
      r.correlation < (zs.getD i defaultTRow).correlation) :
    ∃ r r', crystal_from_template_matching zs = some r ∧
      crystal_from_template_matching (zs ++ ys) = some r' ∧
      r'.phase = r.phase ∧ r'.orientation = r.orientation ∧
      r'.metrics.correlation = r.metrics.correlation ∧
      r'.metrics.orientation_reliability =
        r.metrics.orientation_reliability := by
  have hold := template_multi_full zs i hu hi hmax hfirst hwin
  have hgetD : (zs ++ ys).getD i defaultTRow = zs.getD i defaultTRow :=
    List.getD_append _ _ _ _ hi
  have hu2 : 2 ≤ numUnique ((zs ++ ys).map (·.phase)) := by
    rw [List.map_append]
    exact le_trans hu (numUnique_le_append _ _)
  have hi2 : i < (zs ++ ys).length := by
    rw [List.length_append]
    omega
  have hmax2 : ∀ j, j < (zs ++ ys).length →
      ((zs ++ ys).map (·.correlation)).getD j 0 ≤
      ((zs ++ ys).map (·.correlation)).getD i 0 := by
    intro j hj
    rw [List.length_append] at hj
    rw [List.map_append,
      List.getD_append _ _ _ i (by simpa using hi)]
    by_cases hjx : j < zs.length
    · rw [List.getD_append _ _ _ _ (by simpa using hjx)]
      exact hmax j hjx
    · push_neg at hjx
      rw [List.getD_append_right _ _ _ _ (by simpa using hjx)]
      have hjy : j - (zs.map (·.correlation)).length <
          (ys.map (·.correlation)).length := by
        rw [List.length_map, List.length_map]
        omega
      have hmem := getD_mem_of_lt 0 hjy
      obtain ⟨r, hr, hrv⟩ := List.mem_map.mp hmem
      rw [← hrv, getD_map _ 0 defaultTRow hi]
      exact le_of_lt (hworse r hr)
  have hfirst2 : ∀ j, j < i →
      ((zs ++ ys).map (·.correlation)).getD j 0 <
      ((zs ++ ys).map (·.correlation)).getD i 0 := by
    intro j hj
    rw [List.map_append,
      List.getD_append _ _ _ i (by simpa using hi),
      List.getD_append _ _ _ _ (by simp; omega)]
    exact hfirst j hj
  have hysnil : ys.filter
      (fun r => r.phase == (zs.getD i defaultTRow).phase) = [] :=
    List.filter_eq_nil_iff.mpr (fun a ha => by
      rw [beq_iff_eq, hallq a ha]
      exact hqp)
  have hwin2 : 2 ≤ ((zs ++ ys).filter
      (fun r => r.phase == ((zs ++ ys).getD i defaultTRow).phase)).length := by
    rw [hgetD, List.filter_append, hysnil, List.append_nil]
    exact hwin
  have hnew := template_multi_full (zs ++ ys) i hu2 hi2 hmax2 hfirst2 hwin2
  rw [hgetD] at hnew
  have hW : (zs ++ ys).filter
      (fun r => r.phase == (zs.getD i defaultTRow).phase) =
      zs.filter (fun r => r.phase == (zs.getD i defaultTRow).phase) := by
    rw [List.filter_append, hysnil, List.append_nil]
  rw [hW] at hnew
  exact ⟨_, _, hold, hnew, rfl, rfl, rfl, rfl⟩

theorem vector_multi_append (m2e : Mat3 → Vec3) (zs ys : List VRow)
    (i q : ℕ)
    (hu : 2 ≤ numUnique (zs.map (·.phase)))
    (hi : i < zs.length)
    (hmin : ∀ j, j < zs.length → (zs.map (·.total_error)).getD i 0 ≤
      (zs.map (·.total_error)).getD j 0)
    (hfirst : ∀ j, j < i → (zs.map (·.total_error)).getD i 0 <
      (zs.map (·.total_error)).getD j 0)
    (hwin : 2 ≤ (zs.filter
      (fun r => r.phase == (zs.getD i defaultVRow).phase)).length)
    (hallq : ∀ r ∈ ys, r.phase = q)
    (hqp : q ≠ (zs.getD i defaultVRow).phase)
    (hworse : ∀ r ∈ ys,
      (zs.getD i defaultVRow).total_error < r.total_error) :
    ∃ r r', crystal_from_vector_matching m2e zs = some r ∧
      crystal_from_vector_matching m2e (zs ++ ys) = some r' ∧
      r'.phase = r.phase ∧ r'.orientation = r.orientation ∧
      r'.metrics.match_rate = r.metrics.match_rate ∧
      r'.metrics.total_error = r.metrics.total_error ∧
      r'.metrics.orientation_reliability =
        r.metrics.orientation_reliability := by
  have hold := vector_multi_full m2e zs i hu hi hmin hfirst hwin
  have hgetD : (zs ++ ys).getD i defaultVRow = zs.getD i defaultVRow :=
    List.getD_append _ _ _ _ hi
  have hu2 : 2 ≤ numUnique ((zs ++ ys).map (·.phase)) := by
    rw [List.map_append]
    exact le_trans hu (numUnique_le_append _ _)
  have hi2 : i < (zs ++ ys).length := by
    rw [List.length_append]
    omega
  have hmin2 : ∀ j, j < (zs ++ ys).length →
      ((zs ++ ys).map (·.total_error)).getD i 0 ≤
      ((zs ++ ys).map (·.total_error)).getD j 0 := by
    intro j hj
    rw [List.length_append] at hj
    rw [List.map_append,
      List.getD_append _ _ _ i (by simpa using hi)]
    by_cases hjx : j < zs.length
    · rw [List.getD_append _ _ _ _ (by simpa using hjx)]
      exact hmin j hjx
    · push_neg at hjx
      rw [List.getD_append_right _ _ _ _ (by simpa using hjx)]
      have hjy : j - (zs.map (·.total_error)).length <
          (ys.map (·.total_error)).length := by
        rw [List.length_map, List.length_map]
        omega
      have hmem := getD_mem_of_lt 0 hjy
      obtain ⟨r, hr, hrv⟩ := List.mem_map.mp hmem
      rw [← hrv, getD_map _ 0 defaultVRow hi]
      exact le_of_lt (hworse r hr)
  have hfirst2 : ∀ j, j < i →
      ((zs ++ ys).map (·.total_error)).getD i 0 <
      ((zs ++ ys).map (·.total_error)).getD j 0 := by
    intro j hj
    rw [List.map_append,
      List.getD_append _ _ _ i (by simpa using hi),
      List.getD_append _ _ _ _ (by simp; omega)]
    exact hfirst j hj
  have hysnil : ys.filter
      (fun r => r.phase == (zs.getD i defaultVRow).phase) = [] :=
    List.filter_eq_nil_iff.mpr (fun a ha => by
      rw [beq_iff_eq, hallq a ha]
      exact hqp)
  have hwin2 : 2 ≤ ((zs ++ ys).filter
      (fun r => r.phase == ((zs ++ ys).getD i defaultVRow).phase)).length := by
    rw [hgetD, List.filter_append, hysnil, List.append_nil]
    exact hwin
  have hnew := vector_multi_full m2e (zs ++ ys) i hu2 hi2 hmin2 hfirst2 hwin2
  rw [hgetD] at hnew
  have hW : (zs ++ ys).filter
      (fun r => r.phase == (zs.getD i defaultVRow).phase) =
      zs.filter (fun r => r.phase == (zs.getD i defaultVRow).phase) := by
    rw [List.filter_append, hysnil, List.append_nil]
  rw [hW] at hnew
  exact ⟨_, _, hold, hnew, rfl, rfl, rfl, rfl, rfl⟩

/-- C8: appending a further phase whose best score is strictly worse than
the current winner's (lower correlation for template matching, higher total
error for vector matching) leaves the returned best phase, orientation,
best score and orientation reliability unchanged; only `phase_reliability`
may change.  Four cases: the original input single-phase (sorted
best-first, as the single-phase branch requires) or already multi-phase
(winner characterised as the first extremal row), for each reducer. -/
theorem reducers_phase_invariance :
    (∀ (zs ys : List TRow) (p q : ℕ),
      2 ≤ zs.length →
      (∀ r ∈ zs, r.phase = p) →
      List.Sorted (fun a b : ℚ => b ≤ a) (zs.map (·.correlation)) →
      ys ≠ [] →
      (∀ r ∈ ys, r.phase = q) →
      q ≠ p →
      (∀ r ∈ ys, r.correlation < (zs.getD 0 defaultTRow).correlation) →
      ∃ r r', crystal_from_template_matching zs = some r ∧
        crystal_from_template_matching (zs ++ ys) = some r' ∧
        r'.phase = r.phase ∧ r'.orientation = r.orientation ∧
        r'.metrics.correlation = r.metrics.correlation ∧
        r'.metrics.orientation_reliability =
          r.metrics.orientation_reliability) ∧
      (∀ (zs ys : List TRow) (i q : ℕ),
        2 ≤ numUnique (zs.map (·.phase)) →
        i < zs.length →
        (∀ j, j < zs.length → (zs.map (·.correlation)).getD j 0 ≤
          (zs.map (·.correlation)).getD i 0) →
        (∀ j, j < i → (zs.map (·.correlation)).getD j 0 <
          (zs.map (·.correlation)).getD i 0) →
        2 ≤ (zs.filter
          (fun r => r.phase == (zs.getD i defaultTRow).phase)).length →
        (∀ r ∈ ys, r.phase = q) →
        q ≠ (zs.getD i defaultTRow).phase →
        (∀ r ∈ ys, r.correlation < (zs.getD i defaultTRow).correlation) →
        ∃ r r', crystal_from_template_matching zs = some r ∧
          crystal_from_template_matching (zs ++ ys) = some r' ∧
          r'.phase = r.phase ∧ r'.orientation = r.orientation ∧
          r'.metrics.correlation = r.metrics.correlation ∧
          r'.metrics.orientation_reliability =
            r.metrics.orientation_reliability) ∧
      (∀ (m2e : Mat3 → Vec3) (zs ys : List VRow) (p q : ℕ),
        2 ≤ zs.length →
        (∀ r ∈ zs, r.phase = p) →
        List.Sorted (fun a b : ℚ => a ≤ b) (zs.map (·.total_error)) →
        ys ≠ [] →
        (∀ r ∈ ys, r.phase = q) →
        q ≠ p →
        (∀ r ∈ ys, (zs.getD 0 defaultVRow).total_error < r.total_error) →
        ∃ r r', crystal_from_vector_matching m2e zs = some r ∧
          crystal_from_vector_matching m2e (zs ++ ys) = some r' ∧
          r'.phase = r.phase ∧ r'.orientation = r.orientation ∧
          r'.metrics.match_rate = r.metrics.match_rate ∧
          r'.metrics.total_error = r.metrics.total_error ∧
          r'.metrics.orientation_reliability =
            r.metrics.orientation_reliability) ∧
      (∀ (m2e : Mat3 → Vec3) (zs ys : List VRow) (i q : ℕ),
        2 ≤ numUnique (zs.map (·.phase)) →
        i < zs.length →
        (∀ j, j < zs.length → (zs.map (·.total_error)).getD i 0 ≤
          (zs.map (·.total_error)).getD j 0) →
        (∀ j, j < i → (zs.map (·.total_error)).getD i 0 <
          (zs.map (·.total_error)).getD j 0) →
        2 ≤ (zs.filter
          (fun r => r.phase == (zs.getD i defaultVRow).phase)).length →
        (∀ r ∈ ys, r.phase = q) →
        q ≠ (zs.getD i defaultVRow).phase →
        (∀ r ∈ ys, (zs.getD i defaultVRow).total_error < r.total_error) →
        ∃ r r', crystal_from_vector_matching m2e zs = some r ∧
          crystal_from_vector_matching m2e (zs ++ ys) = some r' ∧
          r'.phase = r.phase ∧ r'.orientation = r.orientation ∧
          r'.metrics.match_rate = r.metrics.match_rate ∧
          r'.metrics.total_error = r.metrics.total_error ∧
          r'.metrics.orientation_reliability =
            r.metrics.orientation_reliability) :=
  ⟨template_single_append, template_multi_append,
   vector_single_append, vector_multi_append⟩

/-- C8 witness: appending a strictly worse phase to concrete single-phase
and multi-phase inputs leaves the projected best phase, orientation, score
and orientation reliability unchanged, for both reducers. -/
theorem reducers_phase_invariance_witness :
    ((crystal_from_template_matching
        ([⟨0, ⟨1, 1, 1⟩, 9/10⟩, ⟨0, ⟨2, 2, 2⟩, 7/10⟩] ++
         [⟨1, ⟨3, 3, 3⟩, 1/2⟩])).map
        (fun r => (r.phase, r.orientation, r.metrics.correlation,
          r.metrics.orientation_reliability)) =
      (crystal_from_template_matching
        [⟨0, ⟨1, 1, 1⟩, 9/10⟩, ⟨0, ⟨2, 2, 2⟩, 7/10⟩]).map
        (fun r => (r.phase, r.orientation, r.metrics.correlation,
          r.metrics.orientation_reliability))) ∧
      ((crystal_from_template_matching
          ([⟨0, ⟨1, 1, 1⟩, 9/10⟩, ⟨0, ⟨2, 2, 2⟩, 7/10⟩, ⟨1, ⟨3, 3, 3⟩, 3/5⟩]
            ++ [⟨2, ⟨4, 4, 4⟩, 1/2⟩])).map
          (fun r => (r.phase, r.orientation, r.metrics.correlation,
            r.metrics.orientation_reliability)) =
        (crystal_from_template_matching
          [⟨0, ⟨1, 1, 1⟩, 9/10⟩, ⟨0, ⟨2, 2, 2⟩, 7/10⟩,
           ⟨1, ⟨3, 3, 3⟩, 3/5⟩]).map
          (fun r => (r.phase, r.orientation, r.metrics.correlation,
            r.metrics.orientation_reliability))) ∧
      ((crystal_from_vector_matching (fun _ => v0)
          ([⟨0, identityMat, 1, [], 1/100⟩, ⟨0, identityMat, 1, [], 1/50⟩]
            ++ [⟨1, identityMat, 1, [], 1⟩])).map
          (fun r => (r.phase, r.orientation, r.metrics.total_error,
            r.metrics.orientation_reliability)) =
        (crystal_from_vector_matching (fun _ => v0)
          [⟨0, identityMat, 1, [], 1/100⟩, ⟨0, identityMat, 1, [], 1/50⟩]).map
          (fun r => (r.phase, r.orientation, r.metrics.total_error,
            r.metrics.orientation_reliability))) ∧
      ((crystal_from_vector_matching (fun _ => v0)
          ([⟨0, identityMat, 1, [], 1/100⟩, ⟨0, identityMat, 1, [], 1/50⟩,
            ⟨1, identityMat, 1, [], 1/20⟩] ++
           [⟨2, identityMat, 1, [], 9/10⟩])).map
          (fun r => (r.phase, r.orientation, r.metrics.total_error,
            r.metrics.orientation_reliability)) =
        (crystal_from_vector_matching (fun _ => v0)
          [⟨0, identityMat, 1, [], 1/100⟩, ⟨0, identityMat, 1, [], 1/50⟩,
           ⟨1, identityMat, 1, [], 1/20⟩]).map
          (fun r => (r.phase, r.orientation, r.metrics.total_error,
            r.metrics.orientation_reliability))) := by
  refine ⟨?_, ?_, ?_, ?_⟩
  · obtain ⟨r, r', h1, h2, h3, h4, h5, h6⟩ :=
      reducers_phase_invariance.1
        [⟨0, ⟨1, 1, 1⟩, 9/10⟩, ⟨0, ⟨2, 2, 2⟩, 7/10⟩] [⟨1, ⟨3, 3, 3⟩, 1/2⟩]
        0 1 (by decide) (by with_unfolding_all decide)
        (by with_unfolding_all decide) (by with_unfolding_all decide)
        (by with_unfolding_all decide) (by omega)
        (by with_unfolding_all decide)
    rw [h1, h2, Option.map_some', Option.map_some', h3, h4, h5, h6]
  · have hmax3 : ∀ j, j < ([⟨0, ⟨1, 1, 1⟩, 9/10⟩, ⟨0, ⟨2, 2, 2⟩, 7/10⟩,
        ⟨1, ⟨3, 3, 3⟩, 3/5⟩] : List TRow).length →
        (([⟨0, ⟨1, 1, 1⟩, 9/10⟩, ⟨0, ⟨2, 2, 2⟩, 7/10⟩,
          ⟨1, ⟨3, 3, 3⟩, 3/5⟩] : List TRow).map (·.correlation)).getD j 0 ≤
        (([⟨0, ⟨1, 1, 1⟩, 9/10⟩, ⟨0, ⟨2, 2, 2⟩, 7/10⟩,
          ⟨1, ⟨3, 3, 3⟩, 3/5⟩] : List TRow).map (·.correlation)).getD 0 0 := by
      intro j hj
      simp only [List.length_cons, List.length_nil] at hj
      interval_cases j <;> with_unfolding_all decide
    obtain ⟨r, r', h1, h2, h3, h4, h5, h6⟩ :=
      reducers_phase_invariance.2.1
        [⟨0, ⟨1, 1, 1⟩, 9/10⟩, ⟨0, ⟨2, 2, 2⟩, 7/10⟩, ⟨1, ⟨3, 3, 3⟩, 3/5⟩]
        [⟨2, ⟨4, 4, 4⟩, 1/2⟩] 0 2 (by with_unfolding_all decide)
        (by with_unfolding_all decide) hmax3 (by omega)
        (by with_unfolding_all decide) (by with_unfolding_all decide)
        (by with_unfolding_all decide) (by with_unfolding_all decide)
    rw [h1, h2, Option.map_some', Option.map_some', h3, h4, h5, h6]
  · obtain ⟨r, r', h1, h2, h3, h4, h5, h6, h7⟩ :=
      reducers_phase_invariance.2.2.1 (fun _ => v0)
        [⟨0, identityMat, 1, [], 1/100⟩, ⟨0, identityMat, 1, [], 1/50⟩]
        [⟨1, identityMat, 1, [], 1⟩] 0 1 (by decide)
        (by with_unfolding_all decide) (by with_unfolding_all decide)
        (by with_unfolding_all decide) (by with_unfolding_all decide)
        (by omega) (by with_unfolding_all decide)
    rw [h1, h2, Option.map_some', Option.map_some', h3, h4, h6, h7]
  · have hmin3 : ∀ j, j < ([⟨0, identityMat, 1, [], 1/100⟩,
        ⟨0, identityMat, 1, [], 1/50⟩,
        ⟨1, identityMat, 1, [], 1/20⟩] : List VRow).length →
        (([⟨0, identityMat, 1, [], 1/100⟩, ⟨0, identityMat, 1, [], 1/50⟩,
          ⟨1, identityMat, 1, [], 1/20⟩] : List VRow).map
          (·.total_error)).getD 0 0 ≤
        (([⟨0, identityMat, 1, [], 1/100⟩, ⟨0, identityMat, 1, [], 1/50⟩,
          ⟨1, identityMat, 1, [], 1/20⟩] : List VRow).map
          (·.total_error)).getD j 0 := by
      intro j hj
      simp only [List.length_cons, List.length_nil] at hj
      interval_cases j <;> with_unfolding_all decide
    obtain ⟨r, r', h1, h2, h3, h4, h5, h6, h7⟩ :=
      reducers_phase_invariance.2.2.2 (fun _ => v0)
        [⟨0, identityMat, 1, [], 1/100⟩, ⟨0, identityMat, 1, [], 1/50⟩,
         ⟨1, identityMat, 1, [], 1/20⟩]
        [⟨2, identityMat, 1, [], 9/10⟩] 0 2
        (by with_unfolding_all decide) (by with_unfolding_all decide) hmin3
        (by omega) (by with_unfolding_all decide)
        (by with_unfolding_all decide) (by with_unfolding_all decide)
        (by with_unfolding_all decide)
    rw [h1, h2, Option.map_some', Option.map_some', h3, h4, h6, h7]
